import Mathlib

/-!
# A verification model of the `testlib` deep-equality engine and helpers

This file embeds, as executable Lean definitions, the parts of the
`liquidgecka/testlib` Go library that the specification claims speak about:

* the reflection-based deep-equality engine `deepEqual` (doc.go), together
  with its visited-pair cycle guard,
* the assertion facade `Equal` / `NotEqual` / `EqualWithIgnores` and the
  top-level nil classification `isNil` (doc.go),
* the per-test finalizer scope `Finish` / `AddFinalizer` (testlib.go),
* the watchdog-cleanup startup interceptor `initRootTempDir` (files.go).

Go's `reflect.Value` is modelled by `RVal` (the runtime representation of a
value) paired with an optional memory address (`RV`) for addressability; the
memory reachable through pointers is an explicit finite heap.  Machine
integers are modelled as `Int`/`Nat` (the engine only ever compares them for
equality), and floating-point values by their IEEE-754 bit patterns together
with Go's native `==` on floats (`goFloatEq`), which is all the engine uses.
Message formatting mirrors the `fmt.Sprintf` calls of the source; the
rendering of composite values by `%#v` (`goDump`) is modelled only up to an
uninterpreted printer, since no observable behaviour of the engine depends
on the rendered dump text.
-/

set_option linter.unusedVariables false

namespace Testlib

/-- Go runtime types, as far as the engine inspects them.  Struct and
interface types are identified nominally (by their declared name), which is
exactly how Go's type identity works for defined types and which keeps the
type of a self-referential struct (e.g. a cyclic list node) representable. -/
inductive GoType where
  | invalidT
  | boolT
  | intT | int8T | int16T | int32T | int64T
  | uintT | uint8T | uint16T | uint32T | uint64T
  | uintptrT
  | float32T | float64T
  | stringT
  | ptrT (elem : GoType)
  | sliceT (elem : GoType)
  | arrayT (n : Nat) (elem : GoType)
  | mapT (key : GoType) (val : GoType)
  | chanT (elem : GoType)
  | funcT (sig : String)
  | structT (name : String)
  | ifaceT (name : String)
  | unsafePtrT
  deriving DecidableEq, Repr

/-- The `reflect.Kind` classification of a type. -/
inductive GoKind where
  | invalidK | boolK | intK | uintK | uintptrK | floatK | stringK
  | ptrK | sliceK | arrayK | mapK | chanK | funcK | structK | ifaceK
  | unsafePtrK
  deriving DecidableEq, Repr

def GoType.kind : GoType → GoKind
  | .invalidT => .invalidK
  | .boolT => .boolK
  | .intT | .int8T | .int16T | .int32T | .int64T => .intK
  | .uintT | .uint8T | .uint16T | .uint32T | .uint64T => .uintK
  | .uintptrT => .uintptrK
  | .float32T | .float64T => .floatK
  | .stringT => .stringK
  | .ptrT _ => .ptrK
  | .sliceT _ => .sliceK
  | .arrayT _ _ => .arrayK
  | .mapT _ _ => .mapK
  | .chanT _ => .chanK
  | .funcT _ => .funcK
  | .structT _ => .structK
  | .ifaceT _ => .ifaceK
  | .unsafePtrT => .unsafePtrK

/-- Map keys.  Go map keys must be comparable; the model restricts them to the
comparable scalar universe actually exercised by the library (integers,
unsigned integers, strings, booleans), on which Go's `==` is structural
equality. -/
inductive KVal where
  | kint (t : GoType) (v : Int)
  | kuint (t : GoType) (v : Nat)
  | kstr (s : List Nat)
  | kbool (b : Bool)
  deriving DecidableEq, Repr

/-- The runtime representation of a Go value, mirroring what `reflect.Value`
exposes to the engine.  Strings are byte sequences.  A pointer holds the
address of its referent in the explicit heap (`none` = nil pointer).  A
struct value carries its field names alongside the field values (in Go the
names live on the type; the model keeps them with the value, which is
equivalent because a value's type determines them). -/
inductive RVal where
  | invalid
  | boolV (b : Bool)
  | intV (t : GoType) (v : Int)
  | uintV (t : GoType) (v : Nat)
  | floatV (t : GoType) (bits : Nat)
  | stringV (s : List Nat)
  | ptrV (t : GoType) (target : Option Nat)
  | sliceV (t : GoType) (elems : Option (List RVal))
  | arrayV (t : GoType) (elems : List RVal)
  | mapV (t : GoType) (entries : Option (List (KVal × RVal)))
  | structV (t : GoType) (fields : List (String × RVal))
  | ifaceV (t : GoType) (inner : Option RVal)
  | chanV (t : GoType) (nilFlag : Bool) (capacity : Nat)
  | funcV (t : GoType) (ident : Option Nat)
  | uintptrV (v : Nat)
  | unsafePtrV (v : Nat)

/-- `reflect.Value.Type()`. -/
def typeOf : RVal → GoType
  | .invalid => .invalidT
  | .boolV _ => .boolT
  | .intV t _ => t
  | .uintV t _ => t
  | .floatV t _ => t
  | .stringV _ => .stringT
  | .ptrV t _ => t
  | .sliceV t _ => t
  | .arrayV t _ => t
  | .mapV t _ => t
  | .structV t _ => t
  | .ifaceV t _ => t
  | .chanV t _ _ => t
  | .funcV t _ => t
  | .uintptrV _ => .uintptrT
  | .unsafePtrV _ => .unsafePtrT

/-- `reflect.Value.IsValid()`. -/
def RVal.isValid : RVal → Bool
  | .invalid => false
  | _ => true

/-- `reflect.Value.IsNil()`, defined on the kinds the engine calls it on. -/
def RVal.goIsNil : RVal → Bool
  | .ptrV _ t => t.isNone
  | .sliceV _ e => e.isNone
  | .mapV _ e => e.isNone
  | .ifaceV _ i => i.isNone
  | .chanV _ n _ => n
  | .funcV _ i => i.isNone
  | _ => false

/-- `reflect.Value.Len()` on the kinds the engine calls it on (a nil slice or
map has length 0). -/
def RVal.goLen : RVal → Nat
  | .sliceV _ (some es) => es.length
  | .sliceV _ none => 0
  | .arrayV _ es => es.length
  | .stringV s => s.length
  | .mapV _ (some en) => en.length
  | .mapV _ none => 0
  | _ => 0

/-- `reflect.Value.Cap()` for channels (a nil channel has capacity 0). -/
def RVal.goCap : RVal → Nat
  | .chanV _ true _ => 0
  | .chanV _ false c => c
  | _ => 0

def RVal.elemsOf : RVal → List RVal
  | .sliceV _ (some es) => es
  | .arrayV _ es => es
  | _ => []

def RVal.fieldsOf : RVal → List (String × RVal)
  | .structV _ fs => fs
  | _ => []

def RVal.entriesOf : RVal → List (KVal × RVal)
  | .mapV _ (some en) => en
  | _ => []

def RVal.strBytes : RVal → List Nat
  | .stringV s => s
  | _ => []

def RVal.goBool : RVal → Bool
  | .boolV b => b
  | _ => false

def RVal.goInt : RVal → Int
  | .intV _ v => v
  | _ => 0

def RVal.goUint : RVal → Nat
  | .uintV _ v => v
  | .uintptrV v => v
  | _ => 0

def RVal.goFloatBits : RVal → Nat
  | .floatV _ b => b
  | _ => 0

def RVal.goPointer : RVal → Nat
  | .unsafePtrV v => v
  | _ => 0

def RVal.ptrTarget : RVal → Option Nat
  | .ptrV _ t => t
  | _ => none

/-- `reflect.Value.MapIndex(k)`: look the key up with Go `==`; an absent key
yields the invalid (zero) `reflect.Value`, i.e. `none` here. -/
def mapIndex (entries : List (KVal × RVal)) (k : KVal) : Option RVal :=
  (entries.find? (fun e => decide (e.1 = k))).map Prod.snd

/-! ## Sizes (used only for fuel bounds and induction, not by the engine) -/

mutual
def sizeR : RVal → Nat
  | .sliceV _ (some es) => 1 + sizeL es
  | .arrayV _ es => 1 + sizeL es
  | .structV _ fs => 1 + sizeFL fs
  | .mapV _ (some en) => 1 + sizeEL en
  | .ifaceV _ (some v) => 1 + sizeR v
  | .ifaceV _ none => 2
  | .ptrV _ _ => 2
  | _ => 1

def sizeL : List RVal → Nat
  | [] => 0
  | v :: r => sizeR v + sizeL r

def sizeFL : List (String × RVal) → Nat
  | [] => 0
  | p :: r => sizeR p.2 + sizeFL r

def sizeEL : List (KVal × RVal) → Nat
  | [] => 0
  | p :: r => sizeR p.2 + sizeEL r
end

/-! ## IEEE-754 equality (Go's native `==` on floats)

The engine compares floats with `have.Float() != want.Float()`; Go's `==`
on floats is IEEE-754 equality: any NaN is unequal to everything (itself
included), and `+0.0 == -0.0` although their bit patterns differ.  The model
works directly on bit patterns. -/

def floatExpBits (t : GoType) : Nat := if t = .float32T then 8 else 11
def floatManBits (t : GoType) : Nat := if t = .float32T then 23 else 52

def floatIsNaN (t : GoType) (bits : Nat) : Bool :=
  let man := bits % 2 ^ floatManBits t
  let exp := bits / 2 ^ floatManBits t % 2 ^ floatExpBits t
  exp = 2 ^ floatExpBits t - 1 && man ≠ 0

/-- Collapse `-0.0` to `+0.0` so that distinct zero bit patterns compare
equal, as Go's `==` does. -/
def floatNormZero (t : GoType) (bits : Nat) : Nat :=
  if bits = 2 ^ (floatExpBits t + floatManBits t) then 0 else bits

def goFloatEq (t : GoType) (b1 b2 : Nat) : Bool :=
  !floatIsNaN t b1 && !floatIsNaN t b2 &&
    floatNormZero t b1 = floatNormZero t b2

mutual
/-- Whether a value contains a NaN float in its immediate (not
pointer-dereferenced) structure; on NaN-free values Go's `==` on every float
reached by the engine without following a pointer is reflexive. -/
def nanFree : RVal → Bool
  | .floatV t b => !floatIsNaN t b
  | .sliceV _ (some es) => nanFreeL es
  | .arrayV _ es => nanFreeL es
  | .structV _ fs => nanFreeFL fs
  | .mapV _ (some en) => nanFreeEL en
  | .ifaceV _ (some v) => nanFree v
  | _ => true

def nanFreeL : List RVal → Bool
  | [] => true
  | v :: r => nanFree v && nanFreeL r

def nanFreeFL : List (String × RVal) → Bool
  | [] => true
  | p :: r => nanFree p.2 && nanFreeFL r

def nanFreeEL : List (KVal × RVal) → Bool
  | [] => true
  | p :: r => nanFree p.2 && nanFreeEL r
end

/-! ## Heap and addressability -/

/-- The addressable store: pointer targets live here.  Lookup takes the first
binding of an address, like real memory where addresses are unique. -/
abbrev Heap := List (Nat × RVal)

def heapFind (heap : Heap) (a : Nat) : Option RVal :=
  (List.find? (fun e => decide (e.1 = a)) heap).map Prod.snd

/-- A `reflect.Value` as the engine sees it: the runtime value together with
its address when it is addressable (`CanAddr`).  In this model exactly the
direct heap cells (pointer referents) are addressable. -/
structure RV where
  val : RVal
  addr : Option Nat

/-- `ptr.Elem()`: dereference.  A nil pointer yields the invalid value; a
live pointer yields the addressable referent. -/
def ptrElem (heap : Heap) : Option Nat → RV
  | none => ⟨.invalid, none⟩
  | some a =>
    match heapFind heap a with
    | some c => ⟨c, some a⟩
    | none => ⟨.invalid, none⟩

/-- `iface.Elem()`: unwrap the boxed value (not addressable). -/
def ifaceElem : RVal → RV
  | .ifaceV _ (some v) => ⟨v, none⟩
  | _ => ⟨.invalid, none⟩

/-- The visited set of the cycle guard.  The source keeps a hash map keyed by
`17*addr1+addr2` whose chains are scanned for the exact
`(addr1, addr2, type)` triple; semantically that is exactly membership of
the triple in the set of recorded triples, which is what the model keeps. -/
abbrev Visited := List (Nat × Nat × GoType)

/-! ## Message formatting

These mirror the `fmt.Sprintf` format strings of doc.go.  `goDump` models
`%#v`: scalar and string renderings are faithful, composite renderings are a
placeholder — the engine never branches on dumped text, so no claim depends
on it. -/

def byteStr (s : List Nat) : String := String.mk (s.map Char.ofNat)

/-- Modelled `%#v` of a string value (quoted). -/
def goQuote (s : List Nat) : String := "\"" ++ byteStr s ++ "\""

def hexStr (n : Nat) : String := "0x" ++ String.mk (Nat.toDigits 16 n)

def typeName : GoType → String
  | .invalidT => "<invalid Value>"
  | .boolT => "bool"
  | .intT => "int"
  | .int8T => "int8"
  | .int16T => "int16"
  | .int32T => "int32"
  | .int64T => "int64"
  | .uintT => "uint"
  | .uint8T => "uint8"
  | .uint16T => "uint16"
  | .uint32T => "uint32"
  | .uint64T => "uint64"
  | .uintptrT => "uintptr"
  | .float32T => "float32"
  | .float64T => "float64"
  | .stringT => "string"
  | .ptrT e => "*" ++ typeName e
  | .sliceT e => "[]" ++ typeName e
  | .arrayT n e => "[" ++ toString n ++ "]" ++ typeName e
  | .mapT k v => "map[" ++ typeName k ++ "]" ++ typeName v
  | .chanT e => "chan " ++ typeName e
  | .funcT sig => sig
  | .structT name => name
  | .ifaceT name => name
  | .unsafePtrT => "unsafe.Pointer"

/-- Modelled `%#v` rendering of a value. -/
def goDump (v : RVal) : String :=
  match v with
  | .invalid => "<invalid Value>"
  | .boolV b => toString b
  | .intV _ n => toString n
  | .uintV _ n => hexStr n
  | .floatV _ bits => "float<" ++ hexStr bits ++ ">"
  | .stringV s => goQuote s
  | .uintptrV n => hexStr n
  | .unsafePtrV n => hexStr n
  | v => typeName (typeOf v) ++ "{...}"

def goDumpOpt : Option RVal → String
  | some v => goDump v
  | none => "<invalid Value>"

/-- Modelled `%q` of a map key `reflect.Value`. -/
def keyQuote : KVal → String
  | .kstr s => goQuote s
  | .kint _ v => toString v
  | .kuint _ v => toString v
  | .kbool b => toString b

/-! ## The string scan of the engine

`for i := range hstr` in Go iterates over the byte indices at which UTF-8
runes begin, and `hstr[i]` reads the single byte at such an index; the loop
therefore compares only the bytes found at rune-start positions.  The rune
width is determined from the lead byte (bytes that do not begin a valid
sequence advance by one, as Go's range does; continuation-byte validation is
not modelled since no claim exercises malformed UTF-8). -/

def runeWidth (b : Nat) : Nat :=
  if b < 0xC0 then 1
  else if b < 0xE0 then 2
  else if b < 0xF0 then 3
  else if b < 0xF8 then 4
  else 1

/-- Walk the bytes one at a time: at a rune start (`skip = 0`) emit the
current index and arrange to skip the rune's continuation bytes. -/
def runeStartsAux : List Nat → Nat → Nat → List Nat
  | [], _, _ => []
  | b :: rest, i, 0 => i :: runeStartsAux rest (i + 1) (runeWidth b - 1)
  | _ :: rest, i, skip + 1 => runeStartsAux rest (i + 1) skip

/-- The byte indices produced by `for i := range s`. -/
def runeStarts (s : List Nat) : List Nat := runeStartsAux s 0 0

/-- The body of the `reflect.String` case: length check, then the first
rune-start index whose bytes differ. -/
def stringDiffs (desc : String) (hs ws : List Nat) : List String :=
  if hs.length ≠ ws.length then
    [desc ++ ": len(have) " ++ toString hs.length ++ " != len(want) " ++
       toString ws.length ++ ".",
     "  have: " ++ goQuote hs,
     "  want: " ++ goQuote ws]
  else
    match (runeStarts hs).find? (fun i => hs.getD i 0 ≠ ws.getD i 0) with
    | some i =>
      [desc ++ ": difference at index " ++ toString i ++ ".",
       "  have: " ++ goQuote hs,
       "  want: " ++ goQuote ws]
    | none => []

/-! ## The engine -/

/-- The `checkNil` closure of `deepEqual`: a difference when exactly one of
the two values is nil. -/
def checkNilMsgs (desc : String) (hval wval : RVal) : Option (List String) :=
  if wval.goIsNil && !hval.goIsNil then
    some [desc ++ ": not equal.",
          "  have: " ++ goDump hval,
          "  want: nil"]
  else if !wval.goIsNil && hval.goIsNil then
    some [desc ++ ": not equal.",
          "  have: nil",
          "  want: " ++ goDump wval]
  else none

/-- The `checkLen` closure of `deepEqual`. -/
def checkLenMsgs (desc : String) (hval wval : RVal) : Option (List String) :=
  if wval.goLen ≠ hval.goLen then
    some [desc ++ ": (len(have): " ++ toString hval.goLen ++ ", len(want): " ++
            toString wval.goLen ++ ")",
          "  have: " ++ goDump hval,
          "  want: " ++ goDump wval]
  else none

/-- Index-labelled child pairs for the array/slice cases
(`desc[i]`, `have.Index(i)`, `want.Index(i)`). -/
def idxPairs (desc : String) (hes wes : List RVal) : List (String × RV × RV) :=
  (List.zip hes wes).enum.map
    (fun p => (desc ++ "[" ++ toString p.1 ++ "]", ⟨p.2.1, none⟩, ⟨p.2.2, none⟩))

/-- Field-labelled child pairs for the struct case.  The field name comes
from `want`'s type; the top-level call (`desc = ""`) uses the bare name. -/
def fieldPairs (desc : String) (hfs wfs : List (String × RVal)) :
    List (String × RV × RV) :=
  (List.zip hfs wfs).map
    (fun p => (if desc = "" then p.2.1 else desc ++ "." ++ p.2.1,
               ⟨p.1.2, none⟩, ⟨p.2.2, none⟩))

/-- The `"%s[%q] "` path label used for map children (note the trailing
space, exactly as in the source). -/
def mapChildDesc (desc : String) (k : KVal) : String :=
  desc ++ "[" ++ keyQuote k ++ "] "

/-- The second map loop: keys present in `have` but not in `want`. -/
def mapExtraKeys (desc : String) (hKeys : List KVal)
    (hEn wEn : List (KVal × RVal)) : List String :=
  match hKeys with
  | [] => []
  | k :: ks =>
    if (mapIndex wEn k).isNone then
      [desc ++ "Unexpected key [" ++ keyQuote k ++ "].",
       "  have: " ++ goDumpOpt (mapIndex hEn k),
       "  want: not present"] ++ mapExtraKeys desc ks hEn wEn
    else mapExtraKeys desc ks hEn wEn

/-- Sequential comparison of labelled child pairs by a child comparator
`cmp`, threading the visited set and concatenating differences, as the
per-index/per-field loops do. -/
def runPairs (cmp : String → RV → RV → Visited → Option (List String × Visited)) :
    List (String × RV × RV) → Visited → Option (List String × Visited)
  | [], visited => some ([], visited)
  | (d, chv, cwv) :: rest, visited =>
    match cmp d chv cwv visited with
    | none => none
    | some (ds1, v1) =>
      match runPairs cmp rest v1 with
      | none => none
      | some (ds2, v2) => some (ds1 ++ ds2, v2)

/-- The first map loop: iterate `want.MapKeys()`, report keys missing from
`have`, compare with `cmp` the values under keys present in both. -/
def runMapKeys (cmp : String → RV → RV → Visited → Option (List String × Visited))
    (desc : String) :
    List KVal → List (KVal × RVal) → List (KVal × RVal) → Visited →
    Option (List String × Visited)
  | [], _, _, visited => some ([], visited)
  | k :: ks, hEn, wEn, visited =>
    match mapIndex hEn k with
    | none =>
      match runMapKeys cmp desc ks hEn wEn visited with
      | none => none
      | some (ds, v') =>
        some ([desc ++ "Expected key [" ++ keyQuote k ++ "] is missing.",
               "  have: not present",
               "  want: " ++ goDumpOpt (mapIndex wEn k)] ++ ds, v')
    | some hx =>
      match cmp (mapChildDesc desc k) ⟨hx, none⟩
          ⟨(mapIndex wEn k).getD .invalid, none⟩ visited with
      | none => none
      | some (ds1, v1) =>
        match runMapKeys cmp desc ks hEn wEn v1 with
        | none => none
        | some (ds2, v2) => some (ds1 ++ ds2, v2)

/-- The kind-dispatch `switch want.Kind()` of `deepEqual`; `cmp` performs
the recursive child comparisons. -/
def deepEqualKind (heap : Heap)
    (cmp : String → RV → RV → Visited → Option (List String × Visited)) :
    String → RV → RV → Visited → Option (List String × Visited)
  | desc, hv, wv, visited =>
    match wv.val with
    | .arrayV _ wes =>
      match checkLenMsgs desc hv.val wv.val with
      | some msgs => some (msgs, visited)
      | none => runPairs cmp (idxPairs desc hv.val.elemsOf wes) visited
    | .chanV _ _ _ =>
      if hv.val.goCap ≠ wv.val.goCap then
        some ([desc ++ "Capacities differ:\n  have: " ++ toString hv.val.goCap ++
                "\n  want: " ++ toString wv.val.goCap], visited)
      else some ([], visited)
    | .funcV _ _ =>
      match checkNilMsgs desc hv.val wv.val with
      | some msgs => some (msgs, visited)
      | none => some ([], visited)
    | .ifaceV _ _ =>
      match checkNilMsgs desc hv.val wv.val with
      | some msgs => some (msgs, visited)
      | none => cmp desc (ifaceElem hv.val) (ifaceElem wv.val) visited
    | .mapV _ _ =>
      match checkNilMsgs desc hv.val wv.val with
      | some msgs => some (msgs, visited)
      | none =>
        match runMapKeys cmp desc (wv.val.entriesOf.map Prod.fst)
            hv.val.entriesOf wv.val.entriesOf visited with
        | none => none
        | some (ds, v') =>
          some (ds ++ mapExtraKeys desc (hv.val.entriesOf.map Prod.fst)
                  hv.val.entriesOf wv.val.entriesOf, v')
    | .ptrV _ wt =>
      cmp desc (ptrElem heap hv.val.ptrTarget) (ptrElem heap wt) visited
    | .sliceV _ _ =>
      match checkNilMsgs desc hv.val wv.val with
      | some msgs => some (msgs, visited)
      | none =>
        match checkLenMsgs desc hv.val wv.val with
        | some msgs => some (msgs, visited)
        | none => runPairs cmp (idxPairs desc hv.val.elemsOf wv.val.elemsOf) visited
    | .stringV ws => some (stringDiffs desc hv.val.strBytes ws, visited)
    | .structV _ wfs =>
      runPairs cmp (fieldPairs desc hv.val.fieldsOf wfs) visited
    | .uintptrV wn =>
      if hv.val.goUint ≠ wn then
        some ([desc ++ ": not equal.",
               "  have: " ++ hexStr hv.val.goUint,
               "  want: " ++ hexStr wn], visited)
      else some ([], visited)
    | .unsafePtrV wn =>
      if hv.val.goPointer ≠ wn then
        some ([desc ++ ": not equal.",
               "  have: " ++ hexStr hv.val.goPointer,
               "  want: " ++ hexStr wn], visited)
      else some ([], visited)
    | .boolV wb =>
      if hv.val.goBool ≠ wb then
        some ([desc ++ ": not equal.",
               "  have: bool(" ++ toString hv.val.goBool ++ ")",
               "  want: bool(" ++ toString wb ++ ")"], visited)
      else some ([], visited)
    | .intV wt wn =>
      if hv.val.goInt ≠ wn then
        some ([desc ++ ": not equal",
               "  have: " ++ typeName (typeOf hv.val) ++ "(" ++ toString hv.val.goInt ++ ")",
               "  want: " ++ typeName wt ++ "(" ++ toString wn ++ ")"], visited)
      else some ([], visited)
    | .uintV wt wn =>
      if hv.val.goUint ≠ wn then
        some ([desc ++ ": not equal",
               "  have: " ++ typeName (typeOf hv.val) ++ "(" ++ toString hv.val.goUint ++ ")",
               "  want: " ++ typeName wt ++ "(" ++ toString wn ++ ")"], visited)
      else some ([], visited)
    | .floatV wt wb =>
      if !goFloatEq wt hv.val.goFloatBits wb then
        some ([desc ++ ": not equal",
               "  have: " ++ typeName (typeOf hv.val) ++ "(float<" ++ hexStr hv.val.goFloatBits ++ ">)",
               "  want: " ++ typeName wt ++ "(float<" ++ hexStr wb ++ ">)"], visited)
      else some ([], visited)
    | .invalid => some ([], visited)

/-- The engine `deepEqual` of doc.go, with explicit fuel (`none` = fuel
exhausted; the termination theorem shows sufficient fuel always exists).
`visited` is threaded through the whole comparison exactly like the shared
mutable map of the source, and is returned updated. -/
def deepEqual (heap : Heap) (ignores : List String) :
    Nat → String → RV → RV → Visited → Option (List String × Visited)
  | 0, _, _, _, _ => none
  | f + 1, desc, hv, wv, visited =>
    -- for _, ignore := range ignores { if desc == ignore { return nil } }
    if desc ∈ ignores then some ([], visited)
    -- validity checks
    else if !wv.val.isValid && !hv.val.isValid then some ([], visited)
    else if !wv.val.isValid && hv.val.isValid then
      some ([desc ++ ": have invalid or nil object."], visited)
    else if wv.val.isValid && !hv.val.isValid then
      some ([desc ++ ": wanted a valid, non nil object."], visited)
    -- type identity check
    else if typeOf wv.val ≠ typeOf hv.val then
      some ([desc ++ ": Not the same type have: '" ++ typeName (typeOf hv.val) ++
              "', want: '" ++ typeName (typeOf wv.val) ++ "'"], visited)
    else
      -- cycle / sharing guard, when both values are addressable
      match wv.addr, hv.addr with
      | some wa, some ha =>
        let a1 := if wa > ha then ha else wa
        let a2 := if wa > ha then wa else ha
        if a1 = a2 then some ([], visited)
        else if (a1, a2, typeOf wv.val) ∈ visited then some ([], visited)
        else deepEqualKind heap (deepEqual heap ignores f) desc hv wv
          ((a1, a2, typeOf wv.val) :: visited)
      | _, _ => deepEqualKind heap (deepEqual heap ignores f) desc hv wv visited

/-! ## The assertion facade

An argument of `Equal`/`NotEqual` is an `interface{}`: either the untyped
nil (`none`) or a concrete runtime value.  A facade call either passes or
fatally aborts the test with a message (`t.Fatalf`); `Outcome` records
which.  The facade functions carry the engine's fuel; the termination
theorem shows a sufficient fuel always exists, and every nil-handling path
is fuel-independent. -/

inductive Outcome where
  | pass
  | fatal (msg : String)
  deriving DecidableEq, Repr

def isFatalO : Option Outcome → Bool
  | some (.fatal _) => true
  | _ => false

/-- The kind implied by a value's shape (which Go kind `reflect.ValueOf`
would report for it). -/
def kindOfVal : RVal → GoKind
  | .invalid => .invalidK
  | .boolV _ => .boolK
  | .intV _ _ => .intK
  | .uintV _ _ => .uintK
  | .floatV _ _ => .floatK
  | .stringV _ => .stringK
  | .ptrV _ _ => .ptrK
  | .sliceV _ _ => .sliceK
  | .arrayV _ _ => .arrayK
  | .mapV _ _ => .mapK
  | .structV _ _ => .structK
  | .ifaceV _ _ => .ifaceK
  | .chanV _ _ _ => .chanK
  | .funcV _ _ => .funcK
  | .uintptrV _ => .uintptrK
  | .unsafePtrV _ => .unsafePtrK

/-- A value whose type tag agrees with its shape (always true of values
produced by the Go runtime). -/
def tagOk (v : RVal) : Bool := (typeOf v).kind = kindOfVal v

/-- `isNil` of doc.go: the untyped nil, or a value of channel, function,
map, pointer or slice kind whose `IsNil` flag is set; every other kind is
never nil. -/
def isNil : Option RVal → Bool
  | none => true
  | some v =>
    match v with
    | .chanV _ n _ => n
    | .funcV _ i => i.isNone
    | .mapV _ e => e.isNone
    | .ptrV _ t => t.isNone
    | .sliceV _ e => e.isNone
    | _ => false

def joinDesc (desc : List String) : String :=
  if desc.length > 0 then String.intercalate " " desc ++ ": " else ""

/-- `equalWithIgnoresPrefix_` of doc.go. -/
def equalWithIgnoresPrefix_ (heap : Heap) (fuel : Nat) (haveV wantV : Option RVal)
    (ignores : List String) (pre : String) : Option Outcome :=
  let haveNil := isNil haveV
  let wantNil := isNil wantV
  if haveNil && wantNil then some .pass
  else if haveNil && !wantNil then some (.fatal (pre ++ "Expected non nil, got nil."))
  else if !haveNil && wantNil then some (.fatal (pre ++ "Expected nil, got non nil."))
  else
    match deepEqual heap ignores fuel "" ⟨haveV.getD .invalid, none⟩
        ⟨wantV.getD .invalid, none⟩ [] with
    | none => none
    | some (reason, _) =>
      if reason.length > 0 then
        some (.fatal (pre ++ "Not Equal\n" ++ String.intercalate "\n" reason))
      else some .pass

/-- `EqualWithIgnores` of doc.go. -/
def EqualWithIgnores (heap : Heap) (fuel : Nat) (haveV wantV : Option RVal)
    (ignores : List String) (desc : List String) : Option Outcome :=
  equalWithIgnoresPrefix_ heap fuel haveV wantV ignores (joinDesc desc)

/-- `Equal` of doc.go: `EqualWithIgnores` with a nil ignore list. -/
def Equal (heap : Heap) (fuel : Nat) (haveV wantV : Option RVal)
    (desc : List String) : Option Outcome :=
  EqualWithIgnores heap fuel haveV wantV [] desc

/-- `notEqualPrefix_` of doc.go. -/
def notEqualPrefix_ (heap : Heap) (fuel : Nat) (haveV unwanted : Option RVal)
    (pre : String) : Option Outcome :=
  let haveNil := isNil haveV
  let unwantedNil := isNil unwanted
  if haveNil && unwantedNil then
    some (.fatal (pre ++ "Equality not expected, have=nil"))
  else if haveNil || unwantedNil then some .pass
  else
    match deepEqual heap [] fuel "" ⟨haveV.getD .invalid, none⟩
        ⟨unwanted.getD .invalid, none⟩ [] with
    | none => none
    | some (reason, _) =>
      if reason.length = 0 then
        some (.fatal (pre ++ "Values are not expected to be equal: " ++ goDumpOpt haveV))
      else some .pass

/-- `NotEqual` of doc.go. -/
def NotEqual (heap : Heap) (fuel : Nat) (haveV unwanted : Option RVal)
    (desc : List String) : Option Outcome :=
  notEqualPrefix_ heap fuel haveV unwanted (joinDesc desc)

/-! ## The per-test scope (testlib.go)

Finalizers are modelled as abstract tokens; running one appends its token to
the execution trace.  `Finish` iterates the list from the last index down to
0 and does not modify the list, so it returns the trace together with the
unchanged scope. -/

structure T where
  finalizers : List Nat

/-- `NewT`: a fresh scope has no finalizers. -/
def NewT : T := ⟨[]⟩

/-- `AddFinalizer` appends to the finalizer list. -/
def AddFinalizer (t : T) (f : Nat) : T := ⟨t.finalizers ++ [f]⟩

/-- The loop `for i := len(t.finalizers) - 1; i >= 0; i--`, producing the
invocation trace. -/
def finishLoop (fs : List Nat) : Nat → List Nat
  | 0 => []
  | i + 1 => fs.getD i 0 :: finishLoop fs i

/-- `Finish` of testlib.go: run the finalizers from the highest index down;
the list itself is left untouched. -/
def Finish (t : T) : List Nat × T := (finishLoop t.finalizers t.finalizers.length, t)

/-! ## The watchdog-cleanup startup interceptor (files.go) -/

/-- The private sentinel token of files.go. -/
def testInterceptorArg : String := "wledfhs9d8fs9id"

/-- What a run of the interceptor did: the exit code passed to `osExit`
(`none` when the function just returns), and whether `osRemoveAll` was
invoked. -/
structure CleanupOutcome where
  exitCode : Option Nat
  removeCalled : Bool
  deriving DecidableEq, Repr

/-- `strings.HasPrefix(s, pre)`. -/
def goHasPre (s pre : String) : Bool := pre.data.isPrefixOf s.data

/-- `initRootTempDir` of files.go.  `osTempDirVal` is the platform temp root
(`os.TempDir()`); `readAllOk` is whether `ioutil.ReadAll(stdin)` reached
end-of-stream without error; `removeAllOk` is whether `os.RemoveAll`
succeeded. -/
def initRootTempDir (args : List String) (osTempDirVal : String)
    (readAllOk removeAllOk : Bool) : CleanupOutcome :=
  if args.length ≠ 3 then ⟨none, false⟩
  else if args.getD 1 "" ≠ testInterceptorArg then ⟨none, false⟩
  else if !goHasPre (args.getD 2 "") osTempDirVal then ⟨some 1, false⟩
  else if !readAllOk then ⟨some 2, false⟩
  else if !removeAllOk then ⟨some 3, true⟩
  else ⟨some 0, true⟩

/-! ## Specification-side definitions

These follow the wording of specification claims (not the source); they are
compared against the source-derived definitions in the claim theorems. -/

/-- The nil classification as worded by the specification claim: an untyped
absence, or a pointer, dynamic-box (interface), associative-map,
dynamic-sequence (slice) or channel-like value whose nil-flag is set;
values of every other kind — including function values — are never nil. -/
def claimNilClass : Option RVal → Bool
  | none => true
  | some v =>
    match (typeOf v).kind with
    | .ptrK | .ifaceK | .mapK | .sliceK | .chanK => v.goIsNil
    | _ => false

/-- The nil classification amended to what the source implements: the kinds
with a nil flag are channel, function, map, pointer and slice (functions
included, interface-boxes not among them since `reflect.ValueOf` never
yields an interface kind). -/
def amendedNilClass : Option RVal → Bool
  | none => true
  | some v =>
    match (typeOf v).kind with
    | .chanK | .funcK | .mapK | .ptrK | .sliceK => v.goIsNil
    | _ => false

/-! ## Concrete values used by the claim theorems -/

/-- UTF-8 encoding of one code point. -/
def charUTF8 (c : Char) : List Nat :=
  let n := c.toNat
  if n < 0x80 then [n]
  else if n < 0x800 then [0xC0 + n / 64, 0x80 + n % 64]
  else if n < 0x10000 then [0xE0 + n / 4096, 0x80 + n / 64 % 64, 0x80 + n % 64]
  else [0xF0 + n / 262144, 0x80 + n / 4096 % 64, 0x80 + n / 64 % 64, 0x80 + n % 64]

/-- UTF-8 bytes of a Lean string literal, for building Go string values. -/
def strB (s : String) : List Nat := s.data.flatMap charUTF8

/-- The cyclic node struct type of the equality tests
(`testEqualCustomNode { value string; next *testEqualCustomNode }`). -/
def nodeT : GoType := .structT "testEqualCustomNode"

def ptrNodeT : GoType := .ptrT nodeT

def node (v : String) (nxt : Nat) : RVal :=
  .structV nodeT [("value", .stringV (strB v)), ("next", .ptrV ptrNodeT (some nxt))]

/-- Address 1 holds a self-referencing 1-node cycle; addresses 2 and 3 hold
a 2-node cycle whose second node's data differs. -/
def cycHeap : Heap := [(1, node "a" 1), (2, node "a" 3), (3, node "b" 2)]

/-- Two independently built, isomorphic 2-node cycles with equal data. -/
def isoHeap : Heap := [(1, node "a" 2), (2, node "b" 1), (11, node "a" 12), (12, node "b" 11)]

/-- The `testObject` struct of TestEqualWithIgnores
(`{ str string; link1, link2 *testObject }`). -/
def objT : GoType := .structT "testObject"

def ptrObjT : GoType := .ptrT objT

def tobj (s : String) (l1 l2 : Option Nat) : RVal :=
  .structV objT [("str", .stringV (strB s)), ("link1", .ptrV ptrObjT l1),
                 ("link2", .ptrV ptrObjT l2)]

/-- `have` (address 1) and `want` (address 11) of TestEqualWithIgnores:
equal everywhere except at path `link2.str`. -/
def ignHeap : Heap :=
  [(1, tobj "same1" (some 2) (some 3)), (2, tobj "same2" none none),
   (3, tobj "different_have" none none),
   (11, tobj "same1" (some 12) (some 13)), (12, tobj "same2" none none),
   (13, tobj "different_want" none none)]

/-- A quiet 64-bit NaN bit pattern. -/
def nanBits : Nat := 0x7FF8000000000000

/-! ## Quantities for the termination bound of the engine

The cycle guard inserts only canonicalized `(addr, addr, type)` triples over
heap addresses and heap-cell types, so the number of triples not yet visited
is a finite budget that shrinks at every insertion. -/

def heapAddrs (heap : Heap) : List Nat := heap.map Prod.fst

def cellTypes (heap : Heap) : List GoType := heap.map (fun e => typeOf e.2)

def tripleUniverse (heap : Heap) : List (Nat × Nat × GoType) :=
  (heapAddrs heap).flatMap (fun a1 =>
    (heapAddrs heap).flatMap (fun a2 =>
      (cellTypes heap).map (fun t => (a1, a2, t))))

/-- The number of guard triples not yet recorded in the visited set. -/
def unvis (heap : Heap) (v : Visited) : Nat :=
  ((tripleUniverse heap).filter (fun t => !decide (t ∈ v))).length

def heapSigma (heap : Heap) : Nat := (heap.map (fun e => sizeR e.2)).sum

def Cbound (heap : Heap) : Nat := 2 * heapSigma heap + 5

/-- The structural part of the fuel measure: zero for pairs that the entry
checks dispose of without structural descent budget (both addressable, or
one invalid), otherwise the sizes of the two values. -/
def weight (hv wv : RV) : Nat :=
  if (hv.addr.isSome && wv.addr.isSome) || !hv.val.isValid || !wv.val.isValid then 0
  else sizeR hv.val + sizeR wv.val

/-- Fuel sufficient for `deepEqual` on the given inputs. -/
def fuelNeed (heap : Heap) (v : Visited) (hv wv : RV) : Nat :=
  (unvis heap v + 1) * Cbound heap + weight hv wv + 1

/-- Well-formedness of an engine value: when it claims an address, that
address really holds it in the heap (true of everything `reflect` produces:
`Elem` of a live pointer is the addressable referent). -/
def wfRV (heap : Heap) (rv : RV) : Prop :=
  rv.addr = none ∨ ∃ a, rv.addr = some a ∧ heapFind heap a = some rv.val

/-! # Theorems -/

/-! ## The finalizer scope -/

theorem finishLoop_take (fs : List Nat) :
    ∀ n, n ≤ fs.length → finishLoop fs n = (fs.take n).reverse := by
  intro n
  induction n with
  | zero => intro _; simp [finishLoop]
  | succ k ih =>
    intro h
    have hlt : k < fs.length := by omega
    rw [finishLoop, ih (by omega), ← List.take_concat_get' fs k hlt, List.reverse_append]
    simp [List.getD_eq_getElem?_getD, List.getElem?_eq_getElem hlt]

theorem finish_trace (t : T) : (Finish t).1 = t.finalizers.reverse := by
  simp only [Finish]
  simpa using finishLoop_take t.finalizers t.finalizers.length (le_refl _)

theorem foldl_addFinalizer (fs : List Nat) :
    ∀ t : T, (fs.foldl AddFinalizer t).finalizers = t.finalizers ++ fs := by
  induction fs with
  | nil => intro t; simp
  | cons f r ih => intro t; simp [ih, AddFinalizer]

/-- C8: finalizers registered with `AddFinalizer` are invoked by `Finish` in
strict reverse-registration order: registering `f1, …, fn` and finishing
yields the invocation trace `fn, …, f1`. -/
theorem C8_finalizers_reverse_order (fs : List Nat) :
    (Finish (fs.foldl AddFinalizer NewT)).1 = fs.reverse := by
  rw [finish_trace, foldl_addFinalizer fs NewT]
  simp [NewT]

/-- C8 witness at a concrete registration sequence. -/
theorem C8_witness : (Finish ([3, 1, 4].foldl AddFinalizer NewT)).1 = [4, 1, 3] := by
  have h := C8_finalizers_reverse_order [3, 1, 4]
  simpa using h

/-- C10: `Finish` leaves the finalizer list in place, so a second `Finish`
replays every finalizer in the same reverse-registration order — `Finish` is
not idempotent in its effects. -/
theorem C10_finish_not_idempotent (t : T) :
    (Finish t).2 = t ∧
    (Finish (Finish t).2).1 = (Finish t).1 ∧
    (t.finalizers ≠ [] → (Finish (Finish t).2).1 ≠ []) := by
  refine ⟨rfl, rfl, ?_⟩
  intro hne
  rw [show (Finish t).2 = t from rfl, finish_trace]
  simpa using hne

/-- C10 witness: replaying a two-finalizer scope. -/
theorem C10_witness :
    (Finish (Finish ⟨[1, 2]⟩).2).1 = (Finish (⟨[1, 2]⟩ : T)).1 ∧
    (Finish (Finish ⟨[1, 2]⟩).2).1 ≠ [] := by
  have h := C10_finish_not_idempotent ⟨[1, 2]⟩
  exact ⟨h.2.1, h.2.2 (by decide)⟩

/-! ## The watchdog interceptor -/

/-- C9: with the sentinel two-argument form, the interceptor exits 1 without
removing anything when the directory is not under the platform temp root,
exits 2 when draining stdin fails, exits 3 when removal fails, exits 0 after
successful removal; any other argument shape returns with no side effects. -/
theorem C9_interceptor (args : List String) (tmp : String) (r rm : Bool) :
    (args.length ≠ 3 ∨ args.getD 1 "" ≠ testInterceptorArg →
      initRootTempDir args tmp r rm = ⟨none, false⟩) ∧
    (∀ a0 d, args = [a0, testInterceptorArg, d] →
      (goHasPre d tmp = false → initRootTempDir args tmp r rm = ⟨some 1, false⟩) ∧
      (goHasPre d tmp = true → r = false → initRootTempDir args tmp r rm = ⟨some 2, false⟩) ∧
      (goHasPre d tmp = true → r = true → rm = false →
        initRootTempDir args tmp r rm = ⟨some 3, true⟩) ∧
      (goHasPre d tmp = true → r = true → rm = true →
        initRootTempDir args tmp r rm = ⟨some 0, true⟩)) := by
  constructor
  · intro h
    simp only [initRootTempDir]
    by_cases h3 : args.length = 3
    · have h' : args.getD 1 "" ≠ testInterceptorArg := by
        rcases h with h | h
        · exact absurd h3 h
        · exact h
      rw [if_neg (fun hc => hc h3), if_pos h']
    · rw [if_pos h3]
  · intro a0 d hargs
    subst hargs
    refine ⟨?_, ?_, ?_, ?_⟩
    · intro hpre
      simp [initRootTempDir, testInterceptorArg, List.getD, hpre]
    · intro hpre hr
      simp [initRootTempDir, testInterceptorArg, List.getD, hpre, hr]
    · intro hpre hr hrm
      simp [initRootTempDir, testInterceptorArg, List.getD, hpre, hr, hrm]
    · intro hpre hr hrm
      simp [initRootTempDir, testInterceptorArg, List.getD, hpre, hr, hrm]

/-! ## Engine entry lemmas -/

theorem deepEqual_ignore (heap : Heap) (ig : List String) (f : Nat) (desc : String)
    (hv wv : RV) (v : Visited) (h : desc ∈ ig) :
    deepEqual heap ig (f + 1) desc hv wv v = some ([], v) := by
  rw [deepEqual]
  simp [h]

theorem deepEqual_type_mismatch (heap : Heap) (ig : List String) (f : Nat)
    (desc : String) (hv wv : RV) (v : Visited)
    (h1 : hv.val.isValid = true) (h2 : wv.val.isValid = true)
    (hne : typeOf wv.val ≠ typeOf hv.val) (hd : desc ∉ ig) :
    deepEqual heap ig (f + 1) desc hv wv v =
      some ([desc ++ ": Not the same type have: '" ++ typeName (typeOf hv.val) ++
              "', want: '" ++ typeName (typeOf wv.val) ++ "'"], v) := by
  rw [deepEqual]
  simp [h1, h2, hne, hd]

theorem deepEqual_visited_hit (heap : Heap) (ig : List String) (f : Nat)
    (desc : String) (hv wv : RV) (v : Visited) (wa ha : Nat)
    (h1 : hv.val.isValid = true) (h2 : wv.val.isValid = true)
    (heq : typeOf wv.val = typeOf hv.val) (hd : desc ∉ ig)
    (hha : hv.addr = some ha) (hwa : wv.addr = some wa) (hne : wa ≠ ha)
    (hmem : (min wa ha, max wa ha, typeOf wv.val) ∈ v) :
    deepEqual heap ig (f + 1) desc hv wv v = some ([], v) := by
  rw [deepEqual]
  rw [heq] at hmem
  simp only [hd, h1, h2, heq, hha, hwa]
  have hcan : (if wa > ha then ha else wa) = min wa ha ∧
      (if wa > ha then wa else ha) = max wa ha := by
    constructor <;> (split <;> omega)
  simp [hcan.1, hcan.2, hmem, hne, fun h : min wa ha = max wa ha => hne (by omega)]

/-! ## C3: type mismatch -/

/-- C3 counterexample: two values of different runtime types that both
classify as nil make `Equal` pass, not abort, so the claim as stated (every
differently-typed pair fatally aborts) is false on the code. -/
theorem C3_counterexample :
    typeOf (.ptrV (.ptrT .intT) none) ≠ typeOf (RVal.sliceV (.sliceT .intT) none) ∧
    Equal [] 1 (some (.ptrV (.ptrT .intT) none)) (some (.sliceV (.sliceT .intT) none)) [] =
      some .pass := by
  constructor
  · decide
  · decide

/-- C3 (amended): for valid values neither of which classifies as nil, a
runtime-type mismatch makes the engine record exactly one difference naming
both type names with no further descent (the visited set is untouched), and
makes `Equal` fatally abort with a message naming both types, regardless of
value content. -/
theorem C3_type_mismatch (heap : Heap) (f : Nat) (a b : RVal)
    (hna : isNil (some a) = false) (hnb : isNil (some b) = false)
    (hva : a.isValid = true) (hvb : b.isValid = true)
    (hne : typeOf a ≠ typeOf b) :
    deepEqual heap [] (f + 1) "" ⟨a, none⟩ ⟨b, none⟩ [] =
      some ([": Not the same type have: '" ++ typeName (typeOf a) ++
              "', want: '" ++ typeName (typeOf b) ++ "'"], []) ∧
    Equal heap (f + 1) (some a) (some b) [] =
      some (.fatal ("Not Equal\n" ++ (": Not the same type have: '" ++ typeName (typeOf a) ++
              "', want: '" ++ typeName (typeOf b) ++ "'"))) := by
  have heng := deepEqual_type_mismatch heap [] f "" ⟨a, none⟩ ⟨b, none⟩ []
    hva hvb (fun h => hne h.symm) (by simp)
  refine ⟨heng, ?_⟩
  simp only [Equal, EqualWithIgnores, equalWithIgnoresPrefix_, joinDesc, hna, hnb]
  simp only [Option.getD_some, heng]
  simp [String.intercalate, String.intercalate.go]

/-- C3 witness at a concrete type-mismatched pair. -/
theorem C3_witness :
    Equal [] 1 (some (.intV .intT 1)) (some (.stringV (strB "x"))) [] =
      some (.fatal "Not Equal\n: Not the same type have: 'int', want: 'string'") := by
  have h := (C3_type_mismatch [] 0 (.intV .intT 1) (.stringV (strB "x"))
    rfl rfl rfl rfl (by decide)).2
  rw [h]
  decide

/-! ## C4: NotEqual nil policy -/

/-- C4: `NotEqual` fatally aborts when both arguments classify as nil,
passes without consulting the engine (any fuel, even zero) when exactly one
does, and otherwise aborts exactly when the engine returns an empty
difference record. -/
theorem C4_notEqual_nil_policy (heap : Heap) (f : Nat) (hv uv : Option RVal)
    (pre : String) :
    (isNil hv = true → isNil uv = true →
      notEqualPrefix_ heap f hv uv pre =
        some (.fatal (pre ++ "Equality not expected, have=nil"))) ∧
    (isNil hv ≠ isNil uv → notEqualPrefix_ heap f hv uv pre = some .pass) ∧
    (isNil hv = false → isNil uv = false →
      ∀ ds v', deepEqual heap [] f "" ⟨hv.getD .invalid, none⟩
          ⟨uv.getD .invalid, none⟩ [] = some (ds, v') →
        (isFatalO (notEqualPrefix_ heap f hv uv pre) = true ↔ ds = [])) := by
  refine ⟨?_, ?_, ?_⟩
  · intro h1 h2
    simp [notEqualPrefix_, h1, h2]
  · intro hne
    cases hh : isNil hv <;> cases hu : isNil uv
    · exact absurd (hh.trans hu.symm) hne
    · simp [notEqualPrefix_, hh, hu]
    · simp [notEqualPrefix_, hh, hu]
    · exact absurd (hh.trans hu.symm) hne
  · intro h1 h2 ds v' heng
    simp only [notEqualPrefix_, h1, h2, Bool.and_self, Bool.or_self, heng]
    cases ds <;> simp [isFatalO]

/-- C4 witness: both-nil aborts, one-nil passes with zero fuel, equal
non-nil values abort, unequal non-nil values pass. -/
theorem C4_witness :
    notEqualPrefix_ [] 0 none none "" =
      some (.fatal "Equality not expected, have=nil") ∧
    notEqualPrefix_ [] 0 none (some (.intV .intT 5)) "" = some .pass ∧
    isFatalO (notEqualPrefix_ [] 1 (some (.intV .intT 5)) (some (.intV .intT 5)) "") = true ∧
    isFatalO (notEqualPrefix_ [] 1 (some (.intV .intT 5)) (some (.intV .intT 6)) "") = false := by
  refine ⟨?_, ?_, ?_, ?_⟩
  · exact (C4_notEqual_nil_policy [] 0 none none "").1 rfl rfl
  · exact (C4_notEqual_nil_policy [] 0 none (some (.intV .intT 5)) "").2.1 (by decide)
  · have h := ((C4_notEqual_nil_policy [] 1 (some (.intV .intT 5)) (some (.intV .intT 5)) "").2.2
      rfl rfl [] [] (by decide)).2 rfl
    simpa using h
  · have h := (C4_notEqual_nil_policy [] 1 (some (.intV .intT 5)) (some (.intV .intT 6)) "").2.2
      rfl rfl
    have h2 := h _ _ (show deepEqual [] [] 1 "" ⟨.intV .intT 5, none⟩ ⟨.intV .intT 6, none⟩ [] =
      some ([": not equal", "  have: int(5)", "  want: int(6)"], []) by decide)
    simp only [ne_eq, reduceCtorEq, not_false_eq_true, iff_false] at h2
    simpa using h2

/-! ## C5: the ignore check -/

/-- C5: the ignore check is evaluated first — a path in the ignore set makes
the engine return no differences without descending (visited untouched);
consequently on the TestEqualWithIgnores data (equal except at `link2.str`),
ignoring `link2.str` passes while ignoring `link1.str` still fails. -/
theorem C5_ignores :
    (∀ (heap : Heap) (ig : List String) (f : Nat) (desc : String) (hv wv : RV)
        (v : Visited), desc ∈ ig → deepEqual heap ig (f + 1) desc hv wv v = some ([], v)) ∧
    EqualWithIgnores ignHeap 20 (some (.ptrV ptrObjT (some 1)))
      (some (.ptrV ptrObjT (some 11))) ["link2.str"] [] = some .pass ∧
    isFatalO (EqualWithIgnores ignHeap 20 (some (.ptrV ptrObjT (some 1)))
      (some (.ptrV ptrObjT (some 11))) ["link1.str"] []) = true := by
  refine ⟨?_, by decide, by decide⟩
  intro heap ig f desc hv wv v h
  exact deepEqual_ignore heap ig f desc hv wv v h

/-- C5 witness: the general ignore fact at a concrete ignored path. -/
theorem C5_witness :
    deepEqual ignHeap ["link1.str"] 19 "link1.str"
      ⟨.stringV (strB "same2"), none⟩ ⟨.stringV (strB "same2"), none⟩
      [(1, 11, objT)] = some ([], [(1, 11, objT)]) := by
  exact C5_ignores.1 ignHeap ["link1.str"] 18 "link1.str" _ _ _ (by decide)

/-! ## C6: the string scan -/

/-- C6: the positive parts hold on ASCII input — a length mismatch yields
one difference carrying both full strings, and `"aaaa"` vs `"aaba"` yields a
difference citing index 2.  But the scan visits only UTF-8 rune-start
indices (`for i := range hstr` semantics), so two different equal-length
strings whose differing byte is a continuation byte produce no difference at
all: `"aβ"` and `"aα"` compare equal.  The code thus does not report the
first differing byte index in general. -/
theorem C6_string_scan :
    (deepEqual [] [] 1 "" ⟨.stringV (strB "aaaa"), none⟩ ⟨.stringV (strB "aaba"), none⟩ [] =
      some ([": difference at index 2.", "  have: \"aaaa\"", "  want: \"aaba\""], [])) ∧
    (deepEqual [] [] 1 "" ⟨.stringV (strB "aa"), none⟩ ⟨.stringV (strB "aaa"), none⟩ [] =
      some ([": len(have) 2 != len(want) 3.", "  have: \"aa\"", "  want: \"aaa\""], [])) ∧
    (strB "aβ" ≠ strB "aα" ∧
      deepEqual [] [] 1 "" ⟨.stringV (strB "aβ"), none⟩ ⟨.stringV (strB "aα"), none⟩ [] =
        some ([], [])) := by
  refine ⟨by decide, by decide, by decide, by decide⟩

/-! ## C7: the nil classification -/

/-- C7 counterexample: a nil function value is classified nil by the
source's `isNil` (the claim says function values are never classified nil,
and the claim's own classification disagrees with the code here). -/
theorem C7_counterexample :
    isNil (some (.funcV (.funcT "func()") none)) = true ∧
    claimNilClass (some (.funcV (.funcT "func()") none)) = false := by
  decide

/-- C7 (amended): a value classifies as nil exactly when it is the untyped
absence or a channel-, function-, map-, pointer- or slice-kind value whose
nil flag is set (functions included; an interface kind never reaches this
check); and this classification governs the top level of `Equal`:
both nil passes, exactly one nil fatally aborts, in either case without
consulting the engine. -/
theorem C7_nil_classification :
    (∀ v : RVal, tagOk v = true → isNil (some v) = amendedNilClass (some v)) ∧
    isNil none = true ∧
    (∀ (heap : Heap) (f : Nat) (hv wv : Option RVal) (ig d : List String),
      (isNil hv = true → isNil wv = true →
        EqualWithIgnores heap f hv wv ig d = some .pass) ∧
      (isNil hv ≠ isNil wv →
        isFatalO (EqualWithIgnores heap f hv wv ig d) = true)) := by
  refine ⟨?_, rfl, ?_⟩
  · intro v htag
    cases v <;> simp_all [isNil, amendedNilClass, tagOk, kindOfVal, typeOf, RVal.goIsNil]
  · intro heap f hv wv ig d
    constructor
    · intro h1 h2
      simp [EqualWithIgnores, equalWithIgnoresPrefix_, h1, h2]
    · intro hne
      cases hh : isNil hv <;> cases hu : isNil wv
      · exact absurd (hh.trans hu.symm) hne
      · simp [EqualWithIgnores, equalWithIgnoresPrefix_, isFatalO, hh, hu]
      · simp [EqualWithIgnores, equalWithIgnoresPrefix_, isFatalO, hh, hu]
      · exact absurd (hh.trans hu.symm) hne

/-- C7 witness: the classification agreement at a nil map value, and the
top-level governance at a nil-vs-non-nil pair. -/
theorem C7_witness :
    isNil (some (.mapV (.mapT .intT .intT) none)) =
      amendedNilClass (some (.mapV (.mapT .intT .intT) none)) ∧
    isFatalO (EqualWithIgnores [] 0 none (some (.intV .intT 3)) [] []) = true := by
  constructor
  · exact C7_nil_classification.1 (.mapV (.mapT .intT .intT) none) (by decide)
  · exact ((C7_nil_classification.2.2 [] 0 none (some (.intV .intT 3)) [] []).2) (by decide)

/-! ## Size and NaN-freedom facts -/

theorem sizeR_pos (v : RVal) : 1 ≤ sizeR v := by
  unfold sizeR
  split <;> omega

theorem sizeR_mem_sizeL {x : RVal} : ∀ {l : List RVal}, x ∈ l → sizeR x ≤ sizeL l := by
  intro l
  induction l with
  | nil => intro h; simp at h
  | cons a r ih =>
    intro h
    rw [sizeL]
    rcases List.mem_cons.mp h with rfl | h
    · omega
    · have := ih h; omega

theorem sizeR_mem_sizeFL {x : String × RVal} :
    ∀ {l : List (String × RVal)}, x ∈ l → sizeR x.2 ≤ sizeFL l := by
  intro l
  induction l with
  | nil => intro h; simp at h
  | cons a r ih =>
    intro h
    rw [sizeFL]
    rcases List.mem_cons.mp h with rfl | h
    · omega
    · have := ih h; omega

theorem sizeR_mem_sizeEL {x : KVal × RVal} :
    ∀ {l : List (KVal × RVal)}, x ∈ l → sizeR x.2 ≤ sizeEL l := by
  intro l
  induction l with
  | nil => intro h; simp at h
  | cons a r ih =>
    intro h
    rw [sizeEL]
    rcases List.mem_cons.mp h with rfl | h
    · omega
    · have := ih h; omega

theorem nanFreeL_mem {x : RVal} : ∀ {l : List RVal},
    nanFreeL l = true → x ∈ l → nanFree x = true := by
  intro l
  induction l with
  | nil => intro _ h; simp at h
  | cons a r ih =>
    intro hl h
    rw [nanFreeL, Bool.and_eq_true] at hl
    rcases List.mem_cons.mp h with rfl | h
    · exact hl.1
    · exact ih hl.2 h

theorem nanFreeFL_mem {x : String × RVal} : ∀ {l : List (String × RVal)},
    nanFreeFL l = true → x ∈ l → nanFree x.2 = true := by
  intro l
  induction l with
  | nil => intro _ h; simp at h
  | cons a r ih =>
    intro hl h
    rw [nanFreeFL, Bool.and_eq_true] at hl
    rcases List.mem_cons.mp h with rfl | h
    · exact hl.1
    · exact ih hl.2 h

theorem nanFreeEL_mem {x : KVal × RVal} : ∀ {l : List (KVal × RVal)},
    nanFreeEL l = true → x ∈ l → nanFree x.2 = true := by
  intro l
  induction l with
  | nil => intro _ h; simp at h
  | cons a r ih =>
    intro hl h
    rw [nanFreeEL, Bool.and_eq_true] at hl
    rcases List.mem_cons.mp h with rfl | h
    · exact hl.1
    · exact ih hl.2 h

/-! ## Self-comparison facts about the engine's building blocks -/

theorem checkNilMsgs_self (desc : String) (x : RVal) : checkNilMsgs desc x x = none := by
  unfold checkNilMsgs
  cases h : x.goIsNil <;> simp [h]

theorem checkLenMsgs_self (desc : String) (x : RVal) : checkLenMsgs desc x x = none := by
  simp [checkLenMsgs]

theorem stringDiffs_self (desc : String) (s : List Nat) : stringDiffs desc s s = [] := by
  unfold stringDiffs
  rw [if_neg (by simp), List.find?_eq_none.mpr (fun i _ => by simp)]

theorem goFloatEq_self (t : GoType) (b : Nat) (h : floatIsNaN t b = false) :
    goFloatEq t b b = true := by
  simp [goFloatEq, h]

/-! ## Membership shapes of the child-pair lists -/

theorem mem_zip_self {α : Type _} : ∀ {l : List α} {p : α × α},
    p ∈ List.zip l l → p.1 ∈ l ∧ p.1 = p.2 := by
  intro l
  induction l with
  | nil => intro p h; simp at h
  | cons a r ih =>
    intro p h
    rw [List.zip_cons_cons] at h
    rcases List.mem_cons.mp h with rfl | h
    · exact ⟨List.mem_cons_self _ _, rfl⟩
    · obtain ⟨h1, h2⟩ := ih h
      exact ⟨List.mem_cons_of_mem _ h1, h2⟩

theorem snd_mem_of_mem_enumFrom {α : Type _} : ∀ {l : List α} {n : Nat} {q : Nat × α},
    q ∈ List.enumFrom n l → q.2 ∈ l := by
  intro l
  induction l with
  | nil => intro n q h; simp at h
  | cons a r ih =>
    intro n q h
    rw [List.enumFrom] at h
    rcases List.mem_cons.mp h with rfl | h
    · exact List.mem_cons_self _ _
    · exact List.mem_cons_of_mem _ (ih h)

theorem snd_mem_of_mem_enum {α : Type _} {l : List α} {q : Nat × α}
    (h : q ∈ List.enum l) : q.2 ∈ l :=
  snd_mem_of_mem_enumFrom (by rw [List.enum] at h; exact h)

theorem idxPairs_mem {desc : String} {hes wes : List RVal} {p : String × RV × RV}
    (h : p ∈ idxPairs desc hes wes) :
    ∃ e ∈ List.zip hes wes, p.2.1 = ⟨e.1, none⟩ ∧ p.2.2 = ⟨e.2, none⟩ := by
  simp only [idxPairs, List.mem_map] at h
  obtain ⟨q, hq, rfl⟩ := h
  exact ⟨q.2, snd_mem_of_mem_enum hq, rfl, rfl⟩

theorem fieldPairs_mem {desc : String} {hfs wfs : List (String × RVal)}
    {p : String × RV × RV} (h : p ∈ fieldPairs desc hfs wfs) :
    ∃ e ∈ List.zip hfs wfs, p.2.1 = ⟨e.1.2, none⟩ ∧ p.2.2 = ⟨e.2.2, none⟩ := by
  simp only [fieldPairs, List.mem_map] at h
  obtain ⟨q, hq, rfl⟩ := h
  exact ⟨q, hq, rfl, rfl⟩

theorem mapIndex_cons {a : KVal × RVal} {r : List (KVal × RVal)} {k : KVal} :
    mapIndex (a :: r) k = if a.1 = k then some a.2 else mapIndex r k := by
  by_cases h : a.1 = k
  · simp [mapIndex, List.find?_cons_of_pos, h]
  · simp only [mapIndex]
    rw [List.find?_cons_of_neg _ (by simp [h])]
    simp [h]

theorem mapIndex_mem_keys : ∀ {en : List (KVal × RVal)} {k : KVal},
    k ∈ en.map Prod.fst → ∃ e ∈ en, mapIndex en k = some e.2 := by
  intro en
  induction en with
  | nil => intro k h; simp at h
  | cons a r ih =>
    intro k h
    by_cases hk : a.1 = k
    · exact ⟨a, List.mem_cons_self _ _, by rw [mapIndex_cons, if_pos hk]⟩
    · have h' : k ∈ r.map Prod.fst := by
        simp only [List.map_cons, List.mem_cons] at h
        rcases h with h1 | h1
        · exact absurd h1.symm hk
        · exact h1
      obtain ⟨e, he, hme⟩ := ih h'
      exact ⟨e, List.mem_cons_of_mem _ he, by rw [mapIndex_cons, if_neg hk]; exact hme⟩

/-! ## Identity runs of the loop helpers -/

theorem runPairs_id (cmp : String → RV → RV → Visited → Option (List String × Visited)) :
    ∀ (pairs : List (String × RV × RV)) (v : Visited),
      (∀ p ∈ pairs, ∀ v', cmp p.1 p.2.1 p.2.2 v' = some ([], v')) →
      runPairs cmp pairs v = some ([], v) := by
  intro pairs
  induction pairs with
  | nil => intro v _; rfl
  | cons p r ih =>
    intro v h
    obtain ⟨d, ch, cw⟩ := p
    rw [runPairs, h (d, ch, cw) (List.mem_cons_self _ _) v]
    dsimp only
    rw [ih v (fun q hq => h q (List.mem_cons_of_mem _ hq))]
    rfl

theorem runMapKeys_id (cmp : String → RV → RV → Visited → Option (List String × Visited))
    (desc : String) (en : List (KVal × RVal)) :
    ∀ keys : List KVal,
      (∀ k ∈ keys, ∃ x, mapIndex en k = some x ∧
        ∀ v', cmp (mapChildDesc desc k) ⟨x, none⟩ ⟨x, none⟩ v' = some ([], v')) →
      ∀ v, runMapKeys cmp desc keys en en v = some ([], v) := by
  intro keys
  induction keys with
  | nil => intro _ v; rfl
  | cons k ks ih =>
    intro h v
    obtain ⟨x, hx, hcmp⟩ := h k (List.mem_cons_self _ _)
    rw [runMapKeys, hx]
    dsimp only [Option.getD]
    rw [hcmp v]
    dsimp only
    rw [ih (fun q hq => h q (List.mem_cons_of_mem _ hq)) v]
    rfl

theorem mapExtraKeys_self (desc : String) (hEn en : List (KVal × RVal)) :
    ∀ keys : List KVal, (∀ k ∈ keys, (mapIndex en k).isSome) →
      mapExtraKeys desc keys hEn en = [] := by
  intro keys
  induction keys with
  | nil => intro _; rfl
  | cons k ks ih =>
    intro h
    obtain ⟨y, hy⟩ := Option.isSome_iff_exists.mp (h k (List.mem_cons_self _ _))
    rw [mapExtraKeys, hy]
    simp only [Option.isNone_some, Bool.false_eq_true, if_false]
    exact ih (fun q hq => h q (List.mem_cons_of_mem _ hq))

/-! ## Reflexivity of the engine -/

/-- The entry checks on a value compared against itself: an addressable pair
short-circuits at the identical-address check; otherwise dispatch runs. -/
theorem deepEqual_entry_self (heap : Heap) (ig : List String) (g : Nat)
    (desc : String) (x : RVal) (a : Option Nat) (v : Visited)
    (hig : desc ∉ ig) (hval : x.isValid = true) :
    deepEqual heap ig (g + 1) desc ⟨x, a⟩ ⟨x, a⟩ v =
      match a with
      | some _ => some ([], v)
      | none => deepEqualKind heap (deepEqual heap ig g) desc ⟨x, none⟩ ⟨x, none⟩ v := by
  rw [deepEqual]
  simp only [hig, hval]
  cases a <;> simp

/-- Comparing any NaN-free value against itself yields no differences and
leaves the visited set unchanged, for any fuel at least the value's size. -/
theorem deepEqual_refl (heap : Heap) (ig : List String) :
    ∀ (n : Nat) (x : RVal) (a : Option Nat) (f : Nat) (desc : String) (v : Visited),
      sizeR x ≤ n → nanFree x = true → n ≤ f →
      deepEqual heap ig f desc ⟨x, a⟩ ⟨x, a⟩ v = some ([], v) := by
  intro n
  induction n using Nat.strong_induction_on with
  | _ n IH =>
    intro x a f desc v hsz hnan hf
    have hx1 := sizeR_pos x
    obtain ⟨g, rfl⟩ : ∃ g, f = g + 1 := ⟨f - 1, by omega⟩
    by_cases hig : desc ∈ ig
    · rw [deepEqual]; simp [hig]
    · cases hvalc : x.isValid with
      | false =>
        have hx : x = .invalid := by cases x <;> simp_all [RVal.isValid]
        subst hx
        rw [deepEqual]
        simp [hig, RVal.isValid]
      | true =>
        rw [deepEqual_entry_self heap ig g desc x a v hig hvalc]
        cases a with
        | some aa => rfl
        | none =>
          cases x with
          | invalid => simp [RVal.isValid] at hvalc
          | boolV b => simp [deepEqualKind, RVal.goBool]
          | intV t i => simp [deepEqualKind, RVal.goInt]
          | uintV t u => simp [deepEqualKind, RVal.goUint]
          | floatV t b =>
            have hb : floatIsNaN t b = false := by
              simpa [nanFree] using hnan
            simp [deepEqualKind, RVal.goFloatBits, goFloatEq_self t b hb]
          | stringV s => simp [deepEqualKind, RVal.strBytes, stringDiffs_self]
          | uintptrV u => simp [deepEqualKind, RVal.goUint]
          | unsafePtrV u => simp [deepEqualKind, RVal.goPointer]
          | chanV t nl c => simp [deepEqualKind, RVal.goCap]
          | funcV t i => simp [deepEqualKind, checkNilMsgs_self]
          | ptrV t tgt =>
            simp only [deepEqualKind, RVal.ptrTarget]
            have hg : 1 ≤ g := by
              have : sizeR (RVal.ptrV t tgt) = 2 := by simp [sizeR]
              omega
            obtain ⟨g', rfl⟩ : ∃ g', g = g' + 1 := ⟨g - 1, by omega⟩
            cases tgt with
            | none =>
              rw [show ptrElem heap none = ⟨.invalid, none⟩ from rfl, deepEqual]
              simp [hig, RVal.isValid]
            | some adr =>
              cases hfind : heapFind heap adr with
              | none =>
                rw [show ptrElem heap (some adr) = ⟨.invalid, none⟩ by
                  simp [ptrElem, hfind]]
                rw [deepEqual]
                simp [hig, RVal.isValid]
              | some c =>
                rw [show ptrElem heap (some adr) = ⟨c, some adr⟩ by
                  simp [ptrElem, hfind]]
                cases hcval : c.isValid with
                | false =>
                  have hc : c = .invalid := by cases c <;> simp_all [RVal.isValid]
                  subst hc
                  rw [deepEqual]
                  simp [hig, RVal.isValid]
                | true =>
                  rw [deepEqual_entry_self heap ig g' desc c (some adr) v hig hcval]
          | ifaceV t inner =>
            cases inner with
            | none =>
              simp only [deepEqualKind, checkNilMsgs_self]
              rw [show ifaceElem (RVal.ifaceV t none) = ⟨.invalid, none⟩ from rfl]
              have hg : 1 ≤ g := by
                have : sizeR (RVal.ifaceV t none) = 2 := by simp [sizeR]
                omega
              obtain ⟨g', rfl⟩ : ∃ g', g = g' + 1 := ⟨g - 1, by omega⟩
              rw [deepEqual]
              simp [hig, RVal.isValid]
            | some y =>
              simp only [deepEqualKind, checkNilMsgs_self]
              rw [show ifaceElem (RVal.ifaceV t (some y)) = ⟨y, none⟩ from rfl]
              have hsy : sizeR (RVal.ifaceV t (some y)) = 1 + sizeR y := by simp [sizeR]
              exact IH (n - 1) (by omega) y none g desc v (by omega)
                (by simpa [nanFree] using hnan) (by omega)
          | arrayV t es =>
            simp only [deepEqualKind, checkLenMsgs_self, RVal.elemsOf]
            apply runPairs_id
            intro p hp v'
            obtain ⟨e, hez, hp1, hp2⟩ := idxPairs_mem hp
            obtain ⟨hm, heq⟩ := mem_zip_self hez
            rw [hp1, hp2, ← heq]
            have hse : sizeR (RVal.arrayV t es) = 1 + sizeL es := by simp [sizeR]
            have := sizeR_mem_sizeL hm
            exact IH (n - 1) (by omega) e.1 none g p.1 v' (by omega)
              (nanFreeL_mem (by simpa [nanFree] using hnan) hm) (by omega)
          | sliceV t es =>
            cases es with
            | none => simp [deepEqualKind, checkNilMsgs_self, checkLenMsgs_self,
                RVal.elemsOf, runPairs]
            | some l =>
              simp only [deepEqualKind, checkNilMsgs_self, checkLenMsgs_self,
                RVal.elemsOf]
              apply runPairs_id
              intro p hp v'
              obtain ⟨e, hez, hp1, hp2⟩ := idxPairs_mem hp
              obtain ⟨hm, heq⟩ := mem_zip_self hez
              rw [hp1, hp2, ← heq]
              have hse : sizeR (RVal.sliceV t (some l)) = 1 + sizeL l := by simp [sizeR]
              have := sizeR_mem_sizeL hm
              exact IH (n - 1) (by omega) e.1 none g p.1 v' (by omega)
                (nanFreeL_mem (by simpa [nanFree] using hnan) hm) (by omega)
          | structV t fs =>
            simp only [deepEqualKind, RVal.fieldsOf]
            apply runPairs_id
            intro p hp v'
            obtain ⟨e, hez, hp1, hp2⟩ := fieldPairs_mem hp
            obtain ⟨hm, heq⟩ := mem_zip_self hez
            rw [hp1, hp2, ← heq]
            have hse : sizeR (RVal.structV t fs) = 1 + sizeFL fs := by simp [sizeR]
            have := sizeR_mem_sizeFL hm
            exact IH (n - 1) (by omega) e.1.2 none g p.1 v' (by omega)
              (nanFreeFL_mem (by simpa [nanFree] using hnan) hm) (by omega)
          | mapV t en =>
            cases en with
            | none => simp [deepEqualKind, checkNilMsgs_self, RVal.entriesOf,
                runMapKeys, mapExtraKeys]
            | some l =>
              simp only [deepEqualKind, checkNilMsgs_self, RVal.entriesOf]
              have hrun := runMapKeys_id (deepEqual heap ig g) desc l (l.map Prod.fst)
                (by
                  intro k hk
                  obtain ⟨e, he, hme⟩ := mapIndex_mem_keys hk
                  refine ⟨e.2, hme, ?_⟩
                  intro v'
                  have hse : sizeR (RVal.mapV t (some l)) = 1 + sizeEL l := by simp [sizeR]
                  have := sizeR_mem_sizeEL he
                  exact IH (n - 1) (by omega) e.2 none g (mapChildDesc desc k) v'
                    (by omega) (nanFreeEL_mem (by simpa [nanFree] using hnan) he)
                    (by omega)) v
              rw [hrun]
              rw [mapExtraKeys_self desc l l (l.map Prod.fst)
                (fun k hk => by
                  obtain ⟨e, _, hme⟩ := mapIndex_mem_keys hk
                  rw [hme]; rfl)]
              rfl

/-! ## C2: reflexivity of Equal / NotEqual -/

/-- C2 counterexample: a NaN float compared against itself — Go's native
`==` makes NaN unequal to itself, so `Equal(v, v)` fatally aborts and
`NotEqual(v, v)` passes, falsifying the claim as stated. -/
theorem C2_counterexample :
    isFatalO (Equal [] 1 (some (.floatV .float64T nanBits))
      (some (.floatV .float64T nanBits)) []) = true ∧
    NotEqual [] 1 (some (.floatV .float64T nanBits))
      (some (.floatV .float64T nanBits)) [] = some .pass := by
  constructor
  · decide
  · decide

/-- C2 (amended): for every value of every supported kind whose
non-pointer-reachable structure contains no NaN float, `Equal(v, v)` passes
and `NotEqual(v, v)` fatally aborts (with any fuel at least the value's
size; NaN behind a pointer is harmless since identical references
short-circuit). -/
theorem C2_reflexive (heap : Heap) (x : RVal) (f : Nat)
    (hnan : nanFree x = true) (hsz : sizeR x ≤ f) :
    Equal heap f (some x) (some x) [] = some .pass ∧
    isFatalO (NotEqual heap f (some x) (some x) []) = true := by
  have heng := deepEqual_refl heap [] (sizeR x) x none f "" [] (le_refl _) hnan hsz
  cases hn : isNil (some x) with
  | true =>
    constructor
    · simp [Equal, EqualWithIgnores, equalWithIgnoresPrefix_, joinDesc, hn]
    · simp [NotEqual, notEqualPrefix_, joinDesc, hn, isFatalO]
  | false =>
    constructor
    · simp [Equal, EqualWithIgnores, equalWithIgnoresPrefix_, joinDesc, hn, heng]
    · simp [NotEqual, notEqualPrefix_, joinDesc, hn, heng, isFatalO]

/-- C2 witness: reflexivity at a concrete struct containing a slice, a
string and an integer. -/
theorem C2_witness :
    Equal [] 5 (some (.structV (.structT "s")
      [("a", .sliceV (.sliceT .intT) (some [.intV .intT 3])), ("b", .stringV (strB "hi"))]))
      (some (.structV (.structT "s")
      [("a", .sliceV (.sliceT .intT) (some [.intV .intT 3])), ("b", .stringV (strB "hi"))])) [] =
      some .pass := by
  exact (C2_reflexive [] (.structV (.structT "s")
      [("a", .sliceV (.sliceT .intT) (some [.intV .intT 3])), ("b", .stringV (strB "hi"))])
      5 (by decide) (by decide)).1

/-! ## Counting lemmas for the visited-set budget -/

theorem length_filter_mono {α : Type _} {p q : α → Bool}
    (hpq : ∀ x, q x = true → p x = true) :
    ∀ l : List α, (l.filter q).length ≤ (l.filter p).length := by
  intro l
  induction l with
  | nil => simp
  | cons a r ih =>
    rw [List.filter_cons, List.filter_cons]
    cases hq : q a <;> cases hp : p a
    · simpa [hq, hp] using ih
    · simp only [hq, hp]
      simp only [Bool.false_eq_true, if_false, if_true, List.length_cons]
      exact Nat.le_succ_of_le ih
    · exact absurd (hpq a hq) (by simp [hp])
    · simp only [hq, hp, if_true, List.length_cons]
      exact Nat.succ_le_succ ih

theorem length_filter_strict {α : Type _} {p q : α → Bool}
    (hpq : ∀ x, q x = true → p x = true) :
    ∀ {l : List α} {x : α}, x ∈ l → p x = true → q x = false →
      (l.filter q).length < (l.filter p).length := by
  intro l
  induction l with
  | nil => intro x hx; cases hx
  | cons a r ih =>
    intro x hx hpx hqx
    rw [List.filter_cons, List.filter_cons]
    rcases List.mem_cons.mp hx with rfl | hx'
    · rw [hqx, hpx]
      simp only [Bool.false_eq_true, if_false, if_true]
      have := length_filter_mono hpq r
      simp only [List.length_cons]
      omega
    · have hlt := ih hx' hpx hqx
      cases hq : q a <;> cases hp : p a
      · simpa [hq, hp] using hlt
      · simp only [hq, hp, Bool.false_eq_true, if_false, if_true, List.length_cons]
        omega
      · exact absurd (hpq a hq) (by simp [hp])
      · simp only [hq, hp, if_true, List.length_cons]
        omega

theorem unvis_le_of_subset (heap : Heap) {v v' : Visited} (h : v ⊆ v') :
    unvis heap v' ≤ unvis heap v := by
  apply length_filter_mono
  intro t ht
  simp only [Bool.not_eq_true', decide_eq_false_iff_not] at ht ⊢
  exact fun hm => ht (h hm)

theorem unvis_insert_lt (heap : Heap) {v : Visited} {t : Nat × Nat × GoType}
    (ht : t ∈ tripleUniverse heap) (hnv : t ∉ v) :
    unvis heap (t :: v) < unvis heap v := by
  apply length_filter_strict _ ht
  · simpa using hnv
  · simp
  · intro u hu
    simp only [Bool.not_eq_true', decide_eq_false_iff_not, List.mem_cons] at hu ⊢
    exact fun hm => hu (Or.inr hm)

theorem weight_le (hv wv : RV) : weight hv wv ≤ sizeR hv.val + sizeR wv.val := by
  unfold weight
  split <;> omega

theorem fuelNeed_mono (heap : Heap) {v v' : Visited} (hv wv : RV) (h : v ⊆ v') :
    fuelNeed heap v' hv wv ≤ fuelNeed heap v hv wv := by
  unfold fuelNeed
  have := unvis_le_of_subset heap h
  have hmul : (unvis heap v' + 1) * Cbound heap ≤ (unvis heap v + 1) * Cbound heap :=
    Nat.mul_le_mul_right _ (by omega)
  omega

/-! ## Heap facts -/

theorem heapFind_facts {heap : Heap} {a : Nat} {c : RVal} (h : heapFind heap a = some c) :
    a ∈ heapAddrs heap ∧ typeOf c ∈ cellTypes heap ∧ sizeR c ≤ heapSigma heap := by
  unfold heapFind at h
  obtain ⟨e, he, rfl⟩ : ∃ e, List.find? (fun e => decide (e.1 = a)) heap = some e ∧ e.2 = c := by
    cases hf : List.find? (fun e => decide (e.1 = a)) heap with
    | none => rw [hf] at h; simp at h
    | some e => rw [hf] at h; exact ⟨e, rfl, by simpa using h⟩
  have hmem := List.mem_of_find?_eq_some he
  have heq : e.1 = a := by simpa using List.find?_some he
  refine ⟨?_, ?_, ?_⟩
  · exact heq ▸ List.mem_map.mpr ⟨e, hmem, rfl⟩
  · exact List.mem_map.mpr ⟨e, hmem, rfl⟩
  · exact List.le_sum_of_mem (List.mem_map.mpr ⟨e, hmem, rfl⟩)

theorem mem_tripleUniverse {heap : Heap} {a1 a2 : Nat} {ty : GoType}
    (h1 : a1 ∈ heapAddrs heap) (h2 : a2 ∈ heapAddrs heap) (ht : ty ∈ cellTypes heap) :
    (a1, a2, ty) ∈ tripleUniverse heap := by
  simp only [tripleUniverse, List.mem_flatMap, List.mem_map]
  exact ⟨a1, h1, a2, h2, ty, ht, rfl⟩

/-- A dereference yields either the invalid value without an address, or an
addressable heap cell. -/
theorem ptrElem_cases (heap : Heap) (t : Option Nat) :
    ptrElem heap t = ⟨.invalid, none⟩ ∨
    ∃ a c, t = some a ∧ heapFind heap a = some c ∧ ptrElem heap t = ⟨c, some a⟩ := by
  cases t with
  | none => exact Or.inl rfl
  | some a =>
    cases hf : heapFind heap a with
    | none => left; simp [ptrElem, hf]
    | some c => right; exact ⟨a, c, rfl, hf, by simp [ptrElem, hf]⟩

/-- `ptrElem` always yields a well-formed value. -/
theorem ptrElem_wf (heap : Heap) (t : Option Nat) : wfRV heap (ptrElem heap t) := by
  rcases ptrElem_cases heap t with h | ⟨a, c, _, hf, h⟩
  · exact Or.inl (by rw [h])
  · exact Or.inr ⟨a, by rw [h], by rw [h]; exact hf⟩

/-- Both `ptrElem` results are either invalid or addressable, so the weight
of a dereferenced pair is always zero. -/
theorem weight_ptrElem (heap : Heap) (t1 t2 : Option Nat) :
    weight (ptrElem heap t1) (ptrElem heap t2) = 0 := by
  rcases ptrElem_cases heap t1 with h1 | ⟨a1, c1, _, _, h1⟩ <;>
    rcases ptrElem_cases heap t2 with h2 | ⟨a2, c2, _, _, h2⟩ <;>
      rw [h1, h2] <;> simp [weight, RVal.isValid]

/-! ## Size bounds for the dispatch children -/

theorem sizeL_elemsOf (x : RVal) : sizeL x.elemsOf + 1 ≤ sizeR x := by
  cases x with
  | sliceV t es => cases es <;> simp [RVal.elemsOf, sizeR, sizeL] <;> omega
  | arrayV t es =>
    simp [RVal.elemsOf, sizeR]
    omega
  | _ => simp [RVal.elemsOf, sizeL, sizeR_pos]

theorem sizeFL_fieldsOf (x : RVal) : sizeFL x.fieldsOf + 1 ≤ sizeR x := by
  cases x with
  | structV t fs => simp [RVal.fieldsOf, sizeR]; omega
  | _ => simp [RVal.fieldsOf, sizeFL, sizeR_pos]

theorem sizeEL_entriesOf (x : RVal) : sizeEL x.entriesOf + 1 ≤ sizeR x := by
  cases x with
  | mapV t en => cases en <;> simp [RVal.entriesOf, sizeR, sizeEL] <;> omega
  | _ => simp [RVal.entriesOf, sizeEL, sizeR_pos]

theorem mapIndex_some_mem {en : List (KVal × RVal)} {k : KVal} {x : RVal}
    (h : mapIndex en k = some x) : ∃ e ∈ en, x = e.2 := by
  unfold mapIndex at h
  cases hf : List.find? (fun e => decide (e.1 = k)) en with
  | none => rw [hf] at h; simp at h
  | some e =>
    rw [hf] at h
    exact ⟨e, List.mem_of_find?_eq_some hf, by simpa using h.symm⟩

theorem weight_none_le (ch cw : RVal) :
    weight ⟨ch, none⟩ ⟨cw, none⟩ ≤ sizeR ch + sizeR cw := by
  simpa using weight_le ⟨ch, none⟩ ⟨cw, none⟩

theorem ifaceElem_addr (x : RVal) : (ifaceElem x).addr = none := by
  unfold ifaceElem
  split <;> rfl

theorem ifaceElem_size_of_valid {x : RVal} (h : (ifaceElem x).val.isValid = true) :
    sizeR (ifaceElem x).val + 1 ≤ sizeR x := by
  rcases x with _ | _ | _ | _ | _ | _ | _ | _ | _ | _ | _ | ⟨t, inner⟩ | _ | _ | _ | _ <;>
    first
    | (simp [ifaceElem, RVal.isValid] at h)
    | skip
  cases inner with
  | none => simp [ifaceElem, RVal.isValid] at h
  | some y => simp [ifaceElem, sizeR]; omega

/-! ## Totality of the loop helpers -/

theorem runPairs_total (cmp : String → RV → RV → Visited → Option (List String × Visited)) :
    ∀ (pairs : List (String × RV × RV)) (v : Visited),
      (∀ p ∈ pairs, ∀ v', v ⊆ v' → ∃ r, cmp p.1 p.2.1 p.2.2 v' = some r ∧ v' ⊆ r.2) →
      ∃ r, runPairs cmp pairs v = some r ∧ v ⊆ r.2 := by
  intro pairs
  induction pairs with
  | nil => intro v _; exact ⟨([], v), rfl, List.Subset.refl v⟩
  | cons p r ih =>
    intro v h
    obtain ⟨d, ch, cw⟩ := p
    obtain ⟨⟨ds1, v1⟩, hr1, hs1⟩ :=
      h (d, ch, cw) (List.mem_cons_self _ _) v (List.Subset.refl v)
    obtain ⟨⟨ds2, v2⟩, hr2, hs2⟩ := ih v1
      (fun q hq v' hv' => h q (List.mem_cons_of_mem _ hq) v' (List.Subset.trans hs1 hv'))
    refine ⟨(ds1 ++ ds2, v2), ?_, List.Subset.trans hs1 hs2⟩
    rw [runPairs, hr1]
    dsimp only
    rw [hr2]

theorem runMapKeys_total (cmp : String → RV → RV → Visited → Option (List String × Visited))
    (desc : String) (hEn wEn : List (KVal × RVal)) :
    ∀ (keys : List KVal) (v : Visited),
      (∀ k ∈ keys, ∀ x, mapIndex hEn k = some x → ∀ v', v ⊆ v' →
        ∃ r, cmp (mapChildDesc desc k) ⟨x, none⟩
          ⟨(mapIndex wEn k).getD .invalid, none⟩ v' = some r ∧ v' ⊆ r.2) →
      ∃ r, runMapKeys cmp desc keys hEn wEn v = some r ∧ v ⊆ r.2 := by
  intro keys
  induction keys with
  | nil => intro v _; exact ⟨([], v), rfl, List.Subset.refl v⟩
  | cons k ks ih =>
    intro v h
    cases hx : mapIndex hEn k with
    | none =>
      obtain ⟨⟨ds, v'⟩, hr2, hs2⟩ := ih v
        (fun q hq x hqx v' hv' => h q (List.mem_cons_of_mem _ hq) x hqx v' hv')
      refine ⟨([desc ++ "Expected key [" ++ keyQuote k ++ "] is missing.",
                "  have: not present",
                "  want: " ++ goDumpOpt (mapIndex wEn k)] ++ ds, v'), ?_, hs2⟩
      rw [runMapKeys, hx]
      dsimp only
      rw [hr2]
    | some x =>
      obtain ⟨⟨ds1, v1⟩, hr1, hs1⟩ :=
        h k (List.mem_cons_self _ _) x hx v (List.Subset.refl v)
      obtain ⟨⟨ds2, v2⟩, hr2, hs2⟩ := ih v1
        (fun q hq y hqy v' hv' => h q (List.mem_cons_of_mem _ hq) y hqy v'
          (List.Subset.trans hs1 hv'))
      refine ⟨(ds1 ++ ds2, v2), ?_, List.Subset.trans hs1 hs2⟩
      rw [runMapKeys, hx]
      dsimp only
      rw [hr1]
      dsimp only
      rw [hr2]

theorem weight_iface (x y : RVal) :
    weight (ifaceElem x) (ifaceElem y) + 2 ≤ sizeR x + sizeR y := by
  unfold weight
  split
  · have := sizeR_pos x
    have := sizeR_pos y
    omega
  · rename_i hc
    have h1 : (ifaceElem x).val.isValid = true := by
      cases hval : (ifaceElem x).val.isValid
      · exact absurd (by simp [hval]) hc
      · rfl
    have h2 : (ifaceElem y).val.isValid = true := by
      cases hval : (ifaceElem y).val.isValid
      · exact absurd (by simp [hval]) hc
      · rfl
    have hs1 := ifaceElem_size_of_valid h1
    have hs2 := ifaceElem_size_of_valid h2
    omega

/-- Dispatch totality: given totality of the child comparator at fuel `g`,
the kind dispatch succeeds whenever the budget dominates the sizes. -/
theorem deepEqualKind_total (heap : Heap) (ig : List String) (g : Nat)
    (IHf : ∀ (desc : String) (hv wv : RV) (v : Visited), wfRV heap hv → wfRV heap wv →
      fuelNeed heap v hv wv ≤ g →
      ∃ r, deepEqual heap ig g desc hv wv v = some r ∧ v ⊆ r.2) :
    ∀ (desc : String) (hv wv : RV) (v₀ : Visited),
      (unvis heap v₀ + 1) * Cbound heap + sizeR hv.val + sizeR wv.val ≤ g + 1 →
      ∃ r, deepEqualKind heap (deepEqual heap ig g) desc hv wv v₀ = some r ∧ v₀ ⊆ r.2 := by
  intro desc hv wv v₀ H
  have hu0 : v₀ ⊆ v₀ := List.Subset.refl v₀
  have hchild : ∀ (ch cw : RVal) (v' : Visited), v₀ ⊆ v' →
      sizeR ch + 1 ≤ sizeR hv.val → sizeR cw + 1 ≤ sizeR wv.val →
      fuelNeed heap v' ⟨ch, none⟩ ⟨cw, none⟩ ≤ g := by
    intro ch cw v' hsub h1 h2
    have hk : unvis heap v' ≤ unvis heap v₀ := unvis_le_of_subset heap hsub
    have hw := weight_none_le ch cw
    have hmul : (unvis heap v' + 1) * Cbound heap ≤ (unvis heap v₀ + 1) * Cbound heap :=
      Nat.mul_le_mul_right _ (by omega)
    unfold fuelNeed
    omega
  have hptr2 : ∀ (t1 t2 : Option Nat) (v' : Visited), v₀ ⊆ v' →
      fuelNeed heap v' (ptrElem heap t1) (ptrElem heap t2) ≤ g := by
    intro t1 t2 v' hsub
    have hk : unvis heap v' ≤ unvis heap v₀ := unvis_le_of_subset heap hsub
    have hw := weight_ptrElem heap t1 t2
    have hmul : (unvis heap v' + 1) * Cbound heap ≤ (unvis heap v₀ + 1) * Cbound heap :=
      Nat.mul_le_mul_right _ (by omega)
    have h1 := sizeR_pos hv.val
    have h2 := sizeR_pos wv.val
    unfold fuelNeed
    omega
  cases hwv : wv.val with
  | invalid =>
    simp only [deepEqualKind, hwv]
    exact ⟨_, rfl, hu0⟩
  | boolV wb =>
    simp only [deepEqualKind, hwv]
    split
    · exact ⟨_, rfl, hu0⟩
    · exact ⟨_, rfl, hu0⟩
  | intV wt wn =>
    simp only [deepEqualKind, hwv]
    split
    · exact ⟨_, rfl, hu0⟩
    · exact ⟨_, rfl, hu0⟩
  | uintV wt wn =>
    simp only [deepEqualKind, hwv]
    split
    · exact ⟨_, rfl, hu0⟩
    · exact ⟨_, rfl, hu0⟩
  | floatV wt wb =>
    simp only [deepEqualKind, hwv]
    split
    · exact ⟨_, rfl, hu0⟩
    · exact ⟨_, rfl, hu0⟩
  | uintptrV wn =>
    simp only [deepEqualKind, hwv]
    split
    · exact ⟨_, rfl, hu0⟩
    · exact ⟨_, rfl, hu0⟩
  | unsafePtrV wn =>
    simp only [deepEqualKind, hwv]
    split
    · exact ⟨_, rfl, hu0⟩
    · exact ⟨_, rfl, hu0⟩
  | chanV t nl c =>
    simp only [deepEqualKind, hwv]
    split
    · exact ⟨_, rfl, hu0⟩
    · exact ⟨_, rfl, hu0⟩
  | stringV ws =>
    simp only [deepEqualKind, hwv]
    exact ⟨_, rfl, hu0⟩
  | funcV t i =>
    simp only [deepEqualKind, hwv]
    split
    · exact ⟨_, rfl, hu0⟩
    · exact ⟨_, rfl, hu0⟩
  | ifaceV t inner =>
    simp only [deepEqualKind, hwv]
    split
    · exact ⟨_, rfl, hu0⟩
    · apply IHf desc (ifaceElem hv.val) (ifaceElem (RVal.ifaceV t inner)) v₀
        (Or.inl (ifaceElem_addr _)) (Or.inl (ifaceElem_addr _))
      have hwt := weight_iface hv.val (RVal.ifaceV t inner)
      rw [hwv] at H
      unfold fuelNeed
      omega
  | ptrV t wt =>
    simp only [deepEqualKind, hwv]
    exact IHf desc _ _ v₀ (ptrElem_wf heap _) (ptrElem_wf heap _) (hptr2 _ _ v₀ hu0)
  | arrayV t wes =>
    simp only [deepEqualKind, hwv]
    split
    · exact ⟨_, rfl, hu0⟩
    · apply runPairs_total
      intro p hp v' hsub
      obtain ⟨e, hez, hp1, hp2⟩ := idxPairs_mem hp
      obtain ⟨e1, e2⟩ := e
      obtain ⟨hm1, hm2⟩ := List.of_mem_zip hez
      rw [hp1, hp2]
      have hs1 : sizeR e1 + 1 ≤ sizeR hv.val := by
        have ha := sizeR_mem_sizeL hm1
        have hb := sizeL_elemsOf hv.val
        omega
      have hs2 : sizeR e2 + 1 ≤ sizeR wv.val := by
        rw [hwv]
        have ha := sizeR_mem_sizeL hm2
        have hb : sizeR (RVal.arrayV t wes) = 1 + sizeL wes := by simp [sizeR]
        omega
      exact IHf p.1 _ _ v' (Or.inl rfl) (Or.inl rfl) (hchild e1 e2 v' hsub hs1 hs2)
  | sliceV t wes =>
    simp only [deepEqualKind, hwv]
    split
    · exact ⟨_, rfl, hu0⟩
    · split
      · exact ⟨_, rfl, hu0⟩
      · apply runPairs_total
        intro p hp v' hsub
        obtain ⟨e, hez, hp1, hp2⟩ := idxPairs_mem hp
        obtain ⟨e1, e2⟩ := e
        obtain ⟨hm1, hm2⟩ := List.of_mem_zip hez
        rw [hp1, hp2]
        have hs1 : sizeR e1 + 1 ≤ sizeR hv.val := by
          have ha := sizeR_mem_sizeL hm1
          have hb := sizeL_elemsOf hv.val
          omega
        have hs2 : sizeR e2 + 1 ≤ sizeR wv.val := by
          rw [hwv]
          have ha := sizeR_mem_sizeL hm2
          have hb := sizeL_elemsOf (RVal.sliceV t wes)
          omega
        exact IHf p.1 _ _ v' (Or.inl rfl) (Or.inl rfl) (hchild e1 e2 v' hsub hs1 hs2)
  | structV t wfs =>
    simp only [deepEqualKind, hwv]
    apply runPairs_total
    intro p hp v' hsub
    obtain ⟨e, hez, hp1, hp2⟩ := fieldPairs_mem hp
    obtain ⟨e1, e2⟩ := e
    obtain ⟨hm1, hm2⟩ := List.of_mem_zip hez
    rw [hp1, hp2]
    have hs1 : sizeR e1.2 + 1 ≤ sizeR hv.val := by
      have ha := sizeR_mem_sizeFL hm1
      have hb := sizeFL_fieldsOf hv.val
      omega
    have hs2 : sizeR e2.2 + 1 ≤ sizeR wv.val := by
      rw [hwv]
      have ha := sizeR_mem_sizeFL hm2
      have hb : sizeR (RVal.structV t wfs) = 1 + sizeFL wfs := by simp [sizeR]
      omega
    exact IHf p.1 _ _ v' (Or.inl rfl) (Or.inl rfl) (hchild e1.2 e2.2 v' hsub hs1 hs2)
  | mapV t wen =>
    simp only [deepEqualKind, hwv]
    split
    · exact ⟨_, rfl, hu0⟩
    · obtain ⟨⟨ds1, v1⟩, hr1, hsub1⟩ :=
        runMapKeys_total (deepEqual heap ig g) desc hv.val.entriesOf
          (RVal.mapV t wen).entriesOf ((RVal.mapV t wen).entriesOf.map Prod.fst) v₀
          (by
            intro k hk x hx v' hsub
            obtain ⟨e, he, rfl⟩ := mapIndex_some_mem hx
            obtain ⟨ew, hew, hmw⟩ := mapIndex_mem_keys hk
            rw [hmw]
            have hs1 : sizeR e.2 + 1 ≤ sizeR hv.val := by
              have ha := sizeR_mem_sizeEL he
              have hb := sizeEL_entriesOf hv.val
              omega
            have hs2 : sizeR ew.2 + 1 ≤ sizeR wv.val := by
              rw [hwv]
              have ha := sizeR_mem_sizeEL hew
              have hb := sizeEL_entriesOf (RVal.mapV t wen)
              omega
            exact IHf (mapChildDesc desc k) _ _ v' (Or.inl rfl) (Or.inl rfl)
              (hchild e.2 ew.2 v' hsub hs1 hs2))
      rw [hr1]
      exact ⟨(ds1 ++ mapExtraKeys desc (hv.val.entriesOf.map Prod.fst)
        hv.val.entriesOf (RVal.mapV t wen).entriesOf, v1), rfl, hsub1⟩

/-- Totality of the engine: any fuel at least `fuelNeed` yields a result,
and the visited set only grows. -/
theorem deepEqual_total (heap : Heap) (ig : List String) :
    ∀ (f : Nat) (desc : String) (hv wv : RV) (v : Visited),
      wfRV heap hv → wfRV heap wv → fuelNeed heap v hv wv ≤ f →
      ∃ r, deepEqual heap ig f desc hv wv v = some r ∧ v ⊆ r.2 := by
  intro f
  induction f with
  | zero =>
    intro desc hv wv v _ _ hle
    exfalso
    unfold fuelNeed at hle
    omega
  | succ g IHf =>
    intro desc hv wv v hwfh hwfw hle
    by_cases hig : desc ∈ ig
    · exact ⟨([], v), by rw [deepEqual]; simp [hig], List.Subset.refl v⟩
    cases hh1 : hv.val.isValid with
    | false =>
      cases hw1 : wv.val.isValid with
      | false =>
        exact ⟨([], v), by rw [deepEqual]; simp [hig, hh1, hw1], List.Subset.refl v⟩
      | true =>
        refine ⟨([desc ++ ": wanted a valid, non nil object."], v), ?_, List.Subset.refl v⟩
        rw [deepEqual]
        simp [hig, hh1, hw1]
    | true =>
      cases hw1 : wv.val.isValid with
      | false =>
        refine ⟨([desc ++ ": have invalid or nil object."], v), ?_, List.Subset.refl v⟩
        rw [deepEqual]
        simp [hig, hh1, hw1]
      | true =>
        by_cases hty : typeOf wv.val = typeOf hv.val
        · cases haw : wv.addr with
          | none =>
            have hwt : weight hv wv = sizeR hv.val + sizeR wv.val := by
              unfold weight
              rw [if_neg]
              simp [haw, hh1, hw1]
            have hb : (unvis heap v + 1) * Cbound heap + sizeR hv.val + sizeR wv.val ≤
                g + 1 := by
              unfold fuelNeed at hle
              omega
            obtain ⟨r, hr, hs⟩ := deepEqualKind_total heap ig g IHf desc hv wv v hb
            refine ⟨r, ?_, hs⟩
            rw [deepEqual]
            simp only [hig, hh1, hw1, hty, haw]
            simp only [Bool.not_true, Bool.false_and, Bool.and_false, Bool.and_self,
              Bool.false_eq_true, if_false, ne_eq, not_true_eq_false]
            exact hr
          | some wa =>
            cases hah : hv.addr with
            | none =>
              have hwt : weight hv wv = sizeR hv.val + sizeR wv.val := by
                unfold weight
                rw [if_neg]
                simp [hah, hh1, hw1]
              have hb : (unvis heap v + 1) * Cbound heap + sizeR hv.val + sizeR wv.val ≤
                  g + 1 := by
                unfold fuelNeed at hle
                omega
              obtain ⟨r, hr, hs⟩ := deepEqualKind_total heap ig g IHf desc hv wv v hb
              refine ⟨r, ?_, hs⟩
              rw [deepEqual]
              simp only [hig, hh1, hw1, hty, haw, hah]
              simp only [Bool.not_true, Bool.false_and, Bool.and_false, Bool.and_self,
                Bool.false_eq_true, if_false, ne_eq, not_true_eq_false]
              exact hr
            | some ha =>
              by_cases heq : (if ha < wa then ha else wa) = (if ha < wa then wa else ha)
              · refine ⟨([], v), ?_, List.Subset.refl v⟩
                rw [deepEqual]
                simp [hig, hh1, hw1, hty, haw, hah, heq]
              · by_cases hmem :
                  ((if ha < wa then ha else wa), (if ha < wa then wa else ha),
                    typeOf hv.val) ∈ v
                · refine ⟨([], v), ?_, List.Subset.refl v⟩
                  rw [deepEqual]
                  simp [hig, hh1, hw1, hty, haw, hah, heq, hmem]
                · obtain ⟨ah, hah', hfh⟩ :
                      ∃ a, hv.addr = some a ∧ heapFind heap a = some hv.val := by
                    rcases hwfh with h | hh
                    · rw [h] at hah; exact absurd hah (by simp)
                    · exact hh
                  obtain ⟨aw, haw', hfw⟩ :
                      ∃ a, wv.addr = some a ∧ heapFind heap a = some wv.val := by
                    rcases hwfw with h | hh
                    · rw [h] at haw; exact absurd haw (by simp)
                    · exact hh
                  have hha : ah = ha := by
                    rw [hah] at hah'
                    exact (Option.some.inj hah').symm
                  have hwa : aw = wa := by
                    rw [haw] at haw'
                    exact (Option.some.inj haw').symm
                  rw [hha] at hfh
                  rw [hwa] at hfw
                  have hfah := heapFind_facts hfh
                  have hfaw := heapFind_facts hfw
                  have htin : ((if ha < wa then ha else wa), (if ha < wa then wa else ha),
                      typeOf hv.val) ∈ tripleUniverse heap := by
                    apply mem_tripleUniverse
                    · split
                      · exact hfah.1
                      · exact hfaw.1
                    · split
                      · exact hfaw.1
                      · exact hfah.1
                    · exact hfah.2.1
                  have hlt := unvis_insert_lt heap htin hmem
                  have e1 : (unvis heap v + 1) * Cbound heap =
                      unvis heap v * Cbound heap + Cbound heap := Nat.succ_mul _ _
                  have e2 : (unvis heap (((if ha < wa then ha else wa),
                      (if ha < wa then wa else ha), typeOf hv.val) :: v) + 1) *
                      Cbound heap ≤ unvis heap v * Cbound heap :=
                    Nat.mul_le_mul_right _ (by omega)
                  have e3 : Cbound heap = 2 * heapSigma heap + 5 := rfl
                  have hwt : weight hv wv = 0 := by
                    unfold weight
                    rw [if_pos]
                    simp [haw, hah]
                  have hszh := hfah.2.2
                  have hszw := hfaw.2.2
                  have hb : (unvis heap (((if ha < wa then ha else wa),
                      (if ha < wa then wa else ha), typeOf hv.val) :: v) + 1) *
                      Cbound heap + sizeR hv.val + sizeR wv.val ≤ g + 1 := by
                    unfold fuelNeed at hle
                    omega
                  obtain ⟨r, hr, hs⟩ := deepEqualKind_total heap ig g IHf desc hv wv
                    (((if ha < wa then ha else wa), (if ha < wa then wa else ha),
                      typeOf hv.val) :: v) hb
                  refine ⟨r, ?_, fun u hu => hs (List.mem_cons_of_mem _ hu)⟩
                  rw [deepEqual]
                  simp only [hig, hh1, hw1, hty, haw, hah]
                  simp only [Bool.not_true, Bool.false_and, Bool.and_false, Bool.and_self,
                    Bool.false_eq_true, if_false, ne_eq, not_true_eq_false,
                    not_false_eq_true, gt_iff_lt]
                  rw [if_neg heq, if_neg hmem]
                  exact hr
        · refine ⟨([desc ++ ": Not the same type have: '" ++ typeName (typeOf hv.val) ++
            "', want: '" ++ typeName (typeOf wv.val) ++ "'"], v), ?_, List.Subset.refl v⟩
          rw [deepEqual]
          simp [hig, hh1, hw1, hty]

/-! ## C1: termination and the cycle guard -/

/-- C1: the comparison terminates on every input (any fuel at least the
computable `fuelNeed` bound yields a result, including on cyclic heaps); a
pair already recorded in the visited set under its canonical
(min-address, max-address, type) triple is treated as equal with no descent;
comparing the self-referencing 1-node cycle against the 2-node cycle
terminates and reports a difference, having recorded the canonical pairs
(1,2) and (1,3); and two independently constructed isomorphic cycles with
equal data compare equal. -/
theorem C1_cycle_guard_terminates :
    (∀ (heap : Heap) (ig : List String) (desc : String) (hv wv : RV) (v : Visited)
        (f : Nat), wfRV heap hv → wfRV heap wv → fuelNeed heap v hv wv ≤ f →
      ∃ r, deepEqual heap ig f desc hv wv v = some r) ∧
    (∀ (heap : Heap) (ig : List String) (f : Nat) (desc : String) (hv wv : RV)
        (v : Visited) (wa ha : Nat),
      hv.val.isValid = true → wv.val.isValid = true →
      typeOf wv.val = typeOf hv.val → desc ∉ ig →
      hv.addr = some ha → wv.addr = some wa → wa ≠ ha →
      (min wa ha, max wa ha, typeOf wv.val) ∈ v →
      deepEqual heap ig (f + 1) desc hv wv v = some ([], v)) ∧
    (deepEqual cycHeap [] 20 "" ⟨.ptrV ptrNodeT (some 1), none⟩
        ⟨.ptrV ptrNodeT (some 2), none⟩ [] =
      some (["next.value: difference at index 0.", "  have: \"a\"", "  want: \"b\""],
        [(1, 3, nodeT), (1, 2, nodeT)]) ∧
      (["next.value: difference at index 0.", "  have: \"a\"", "  want: \"b\""] :
        List String) ≠ []) ∧
    deepEqual isoHeap [] 20 "" ⟨.ptrV ptrNodeT (some 1), none⟩
        ⟨.ptrV ptrNodeT (some 11), none⟩ [] =
      some ([], [(2, 12, nodeT), (1, 11, nodeT)]) := by
  refine ⟨?_, ?_, ⟨by decide, by decide⟩, by decide⟩
  · intro heap ig desc hv wv v f hwfh hwfw hf
    obtain ⟨r, hr, _⟩ := deepEqual_total heap ig f desc hv wv v hwfh hwfw hf
    exact ⟨r, hr⟩
  · intro heap ig f desc hv wv v wa ha h1 h2 h3 h4 h5 h6 h7 h8
    exact deepEqual_visited_hit heap ig f desc hv wv v wa ha h1 h2 h3 h4 h5 h6 h7 h8

/-- C1 witness: the termination bound instantiated on the cyclic heap, and
the visited-hit fact at a concrete recorded pair. -/
theorem C1_witness :
    (∃ r, deepEqual cycHeap [] 1000 "" ⟨.ptrV ptrNodeT (some 1), none⟩
      ⟨.ptrV ptrNodeT (some 2), none⟩ [] = some r) ∧
    deepEqual cycHeap [] 8 "x" ⟨node "a" 1, some 1⟩ ⟨node "a" 3, some 2⟩
      [(1, 2, nodeT)] = some ([], [(1, 2, nodeT)]) := by
  constructor
  · exact C1_cycle_guard_terminates.1 cycHeap [] "" _ _ [] 1000
      (Or.inl rfl) (Or.inl rfl) (by decide)
  · exact C1_cycle_guard_terminates.2.1 cycHeap [] 7 "x" _ _ _ 2 1
      (by decide) (by decide) (by decide) (by decide) rfl rfl (by decide) (by decide)

/-- C9 witness: a successful cleanup run and a refused non-temp path. -/
theorem C9_witness :
    initRootTempDir ["prog", "wledfhs9d8fs9id", "/tmp/golang-testlib1"] "/tmp" true true =
      ⟨some 0, true⟩ ∧
    initRootTempDir ["prog", "wledfhs9d8fs9id", "/etc"] "/tmp" true true =
      ⟨some 1, false⟩ := by
  constructor
  · exact ((C9_interceptor _ "/tmp" true true).2 "prog" "/tmp/golang-testlib1" rfl).2.2.2
      (by decide) rfl rfl
  · exact ((C9_interceptor _ "/tmp" true true).2 "prog" "/etc" rfl).1 (by decide)

end Testlib
